import Mathlib

/-!
Verification of the Course Schedule Optimizer allocation engine.

The repository contains two versions of the scheduling engine:
  * `src/unnamed/part_001`: the full engine with multiple sessions per week,
    consistent-room policy and per-day room records.  Modelled in
    namespace `Part001`.
  * `src/script.js`: the engine variant in which each course has a single
    session and an assigned room is marked used in the room inventory.
    Modelled in namespace `ScriptJs`.

Days are modelled as indices 0..4 into the `days` array
(0 = Monday, ..., 4 = Friday); time slots as indices 0..12 into the
`timeSlots` array; course objects are identified by a numeric `cid`
standing for JavaScript object identity.
-/

namespace Part001

/-- The `type` field of a course: the string `'theory'` or `'lab'`. -/
inductive CType where
  | theory
  | lab
deriving DecidableEq, Repr

/-- A `Course` object of `src/unnamed/part_001`, with its constructor fields
and the mutable scheduling-result fields.  `scheduledSlots` holds
`(day, timeIndex)` pairs; `scheduledRooms` is the `day -> room` object,
kept as an association list in key-insertion order so that
`Object.values(course.scheduledRooms)[0]` is the head. -/
structure Course where
  cid : Nat
  ctype : CType
  classesPerWeek : Nat
  consistentRoom : Bool
  floor : Option Nat
  room : Option Nat
  scheduled : Bool
  scheduledSlots : List (Nat × Nat)
  scheduledRooms : List (Nat × Nat × Nat)
deriving DecidableEq, Repr

/-- `get duration()`: lab courses take 2 slots, theory courses 1. -/
def Course.duration (c : Course) : Nat :=
  if c.ctype = CType.lab then 2 else 1

/-- The `Course` constructor: scheduling-result fields start empty. -/
def Course.new (cid : Nat) (ctype : CType) (classesPerWeek : Nat)
    (consistentRoom : Bool) (floor room : Option Nat) : Course :=
  ⟨cid, ctype, classesPerWeek, consistentRoom, floor, room, false, [], []⟩

/-- The `Schedule` state: the course collection, the grid ledger
`day -> timeIndex -> course reference`, and the room availability map
`floor -> room -> available`. -/
structure Schedule where
  courses : List Course
  grid : Nat → Nat → Option Nat
  rooms : Nat → Nat → Bool

/-- `initializeGrid()`: every cell of the 5 x 13 grid is `null`. -/
def initializeGrid : Nat → Nat → Option Nat := fun _ _ => none

/-- `initializeRooms()`: rooms 1..13 on floors 1..7 available, rooms 14
and 15 reserved (and anything outside the structure unavailable). -/
def initializeRooms : Nat → Nat → Bool := fun floor room =>
  if 1 ≤ floor ∧ floor ≤ 7 ∧ 1 ≤ room ∧ room ≤ 13 then true else false

/-- Write `course.scheduledRooms[day] = (floor, room)`: overwrite in place
if the day key exists, append otherwise. -/
def upsertRoom (day floor room : Nat) :
    List (Nat × Nat × Nat) → List (Nat × Nat × Nat)
  | [] => [(day, floor, room)]
  | e :: rest =>
    if e.1 = day then (day, floor, room) :: rest else e :: upsertRoom day floor room rest

/-- Replace the course object identified by `cid` in the collection. -/
def updateCourse (s : Schedule) (cid : Nat) (f : Course → Course) : Schedule :=
  { s with courses := s.courses.map fun c => if c.cid = cid then f c else c }

/-- Write one grid cell. -/
def setCell (g : Nat → Nat → Option Nat) (day t cid : Nat) :
    Nat → Nat → Option Nat :=
  fun d u => if d = day ∧ u = t then some cid else g d u

/-- The assignment loop of `scheduleClassSession`: write the course
reference into cells `timeIndex .. timeIndex + duration - 1` of `day`. -/
def writeSpan (g : Nat → Nat → Option Nat) (day t cid : Nat) :
    Nat → Nat → Nat → Option Nat
  | 0 => g
  | n + 1 => setCell (writeSpan g day t cid n) day (t + n) cid

/-- `isTimeSlotAvailable(day, timeIndex, duration)`: the extra-mural hour
check followed by the per-slot range and double-booking checks. -/
def isTimeSlotAvailable (s : Schedule) (day timeIndex duration : Nat) : Bool :=
  if timeIndex = 6 ∨ (timeIndex < 6 ∧ timeIndex + duration > 6) then false
  else
    (List.range duration).all fun i =>
      decide (timeIndex + i < 13) && (s.grid day (timeIndex + i)).isNone

/-- `isRoomAvailable(floor, room, day, timeIndex, duration)`: the room is
occupied when some grid cell in the span holds a course whose recorded
room for `day` is exactly `(floor, room)`. -/
def isRoomAvailable (s : Schedule) (floor room day timeIndex duration : Nat) : Bool :=
  (List.range duration).all fun i =>
    decide (timeIndex + i < 13) &&
      match s.grid day (timeIndex + i) with
      | none => true
      | some cid =>
        match s.courses.find? fun c => c.cid = cid with
        | none => true
        | some c =>
          match c.scheduledRooms.find? fun e => e.1 = day with
          | none => true
          | some e => !(decide (e.2.1 = floor) && decide (e.2.2 = room))

/-- Scan rooms 1..13 of one floor in ascending order for a free room. -/
def scanFloor (s : Schedule) (floor : Nat) : Option (Nat × Nat) :=
  ((List.range' 1 13).find? fun room => s.rooms floor room).map fun room => (floor, room)

/-- The opening branch of `findAvailableRoom`: a consistent-room course
with at least one recorded room reuses its first room when the room map
still shows it free. -/
def reuseChoice (s : Schedule) (course : Option Course) : Option (Nat × Nat) :=
  match course with
  | some c =>
    if c.consistentRoom then
      match c.scheduledRooms.head? with
      | some e => if s.rooms e.2.1 e.2.2 then some (e.2.1, e.2.2) else none
      | none => none
    else none
  | none => none

/-- `findAvailableRoom(floor, course, day)`: consistent-room reuse against
the room map, then the preferred floor only (no fallback), then all
floors bottom to top.  The `day` argument is unused in the source. -/
def findAvailableRoom (s : Schedule) (floor : Option Nat) (course : Option Course)
    (_day : Option Nat) : Option (Nat × Nat) :=
  match reuseChoice s course with
  | some fr => some fr
  | none =>
    match floor with
    | some f => scanFloor s f
    | none => (List.range' 1 7).findSome? fun f => scanFloor s f

/-- The inner day scan of `findAvailableTimeSlots`: first time index on the
day that passes `isTimeSlotAvailable`. -/
def firstSlotOnDay (s : Schedule) (day duration : Nat) : Option Nat :=
  (List.range 13).find? fun i => isTimeSlotAvailable s day i duration

/-- Phase 1/2 loop of `findAvailableTimeSlots`: for each day in order, stop
once `count` slots are collected, otherwise push the first available slot
of the day (if any). -/
def scanDays (s : Schedule) (duration count : Nat) (acc : List (Nat × Nat)) :
    List Nat → List (Nat × Nat)
  | [] => acc
  | d :: ds =>
    if count ≤ acc.length then acc
    else
      match firstSlotOnDay s d duration with
      | some i => scanDays s duration count (acc ++ [(d, i)]) ds
      | none => scanDays s duration count acc ds

/-- Phase 3 inner scan: first available index at or after `start`. -/
def findFrom (s : Schedule) (day duration start : Nat) : Option Nat :=
  (List.range' start (13 - start)).find? fun i => isTimeSlotAvailable s day i duration

/-- Phase 3 loop of `findAvailableTimeSlots`: revisit days that already got
a slot, scanning past the first chosen slot plus the duration. -/
def scanUsedDays (s : Schedule) (duration count : Nat) (acc : List (Nat × Nat)) :
    List Nat → List (Nat × Nat)
  | [] => acc
  | d :: ds =>
    if count ≤ acc.length then acc
    else
      match acc.find? fun p => p.1 = d with
      | none => scanUsedDays s duration count acc ds
      | some p =>
        match findFrom s d duration (p.2 + duration) with
        | some i => scanUsedDays s duration count (acc ++ [(d, i)]) ds
        | none => scanUsedDays s duration count acc ds

/-- The preferred-day list of `findAvailableTimeSlots`:
`days[(i * floor(5 / count)) % 5]` for `i < count`. -/
def preferredDays (count : Nat) : List Nat :=
  (List.range count).map fun i => i * (5 / count) % 5

/-- `findAvailableTimeSlots(course, count)`: preferred days first, then the
remaining days, then extra slots on days already used. -/
def findAvailableTimeSlots (s : Schedule) (c : Course) (count : Nat) :
    List (Nat × Nat) :=
  let duration := c.duration
  let pref := preferredDays count
  let slots1 := scanDays s duration count [] pref
  let slots2 :=
    if slots1.length < count then
      scanDays s duration count slots1 ((List.range 5).filter fun d => ¬ pref.contains d)
    else slots1
  if slots2.length < count then
    scanUsedDays s duration count slots2 (slots2.map fun p => p.1)
  else slots2

/-- Step (i) of the room selection in `scheduleClassSession`: reuse the
first previously assigned room of a consistent-room course on a non-first
session, when `isRoomAvailable` accepts it. -/
def consistentChoice (s : Schedule) (course : Course) (day timeIndex : Nat)
    (useConsistentRoom : Bool) : Option (Nat × Nat) :=
  if useConsistentRoom ∧ course.consistentRoom then
    match course.scheduledRooms.head? with
    | some e =>
      if isRoomAvailable s e.2.1 e.2.2 day timeIndex course.duration then
        some (e.2.1, e.2.2)
      else none
    | none => none
  else none

/-- Step (ii): the course's explicit preferred floor/room, when both are
given and `isRoomAvailable` accepts them. -/
def preferredChoice (s : Schedule) (course : Course) (day timeIndex : Nat) :
    Option (Nat × Nat) :=
  match course.floor, course.room with
  | some f, some r =>
    if isRoomAvailable s f r day timeIndex course.duration then some (f, r)
    else none
  | _, _ => none

/-- The room-selection sequence of `scheduleClassSession`: consistent-room
reuse, then the explicit preferred floor/room, then `findAvailableRoom`. -/
def sessionRoom (s : Schedule) (course : Course) (day timeIndex : Nat)
    (useConsistentRoom : Bool) : Option (Nat × Nat) :=
  match consistentChoice s course day timeIndex useConsistentRoom with
  | some fr => some fr
  | none =>
    match preferredChoice s course day timeIndex with
    | some fr => some fr
    | none => findAvailableRoom s course.floor (some course) (some day)

/-- The mutation of the course object performed by a successful
`scheduleClassSession`: record the slot and the day's room, and fix the
main floor/room on a consistent-room course with no room yet. -/
def commitCourse (course : Course) (day timeIndex : Nat) (fr : Nat × Nat) : Course :=
  { course with
    scheduledSlots := course.scheduledSlots ++ [(day, timeIndex)]
    scheduledRooms := upsertRoom day fr.1 fr.2 course.scheduledRooms
    floor := if course.consistentRoom ∧ course.room = none then some fr.1 else course.floor
    room := if course.consistentRoom ∧ course.room = none then some fr.2 else course.room }

/-- `scheduleClassSession(course, timeSlotInfo, useConsistentRoom)`: choose
a room by the three-step priority, then commit the session.  `none`
models returning `false`. -/
def scheduleClassSession (s : Schedule) (cid : Nat) (slot : Nat × Nat)
    (useConsistentRoom : Bool) : Option Schedule :=
  match s.courses.find? fun c => c.cid = cid with
  | none => none
  | some course =>
    match sessionRoom s course slot.1 slot.2 useConsistentRoom with
    | none => none
    | some fr =>
      some { (updateCourse s cid fun _ => commitCourse course slot.1 slot.2 fr) with
             grid := writeSpan s.grid slot.1 slot.2 cid course.duration }

/-- The per-session loop of `scheduleCourse`; `first` is true for `i = 0`
(`i > 0` is passed as `useConsistentRoom`).  On a failed session the state
reached so far is returned together with `false`. -/
def sessionsLoop (s : Schedule) (cid : Nat) (first : Bool) :
    List (Nat × Nat) → Schedule × Bool
  | [] => (s, true)
  | sl :: rest =>
    match scheduleClassSession s cid sl (!first) with
    | some s2 => sessionsLoop s2 cid false rest
    | none => (s, false)

/-- `unscheduleCourse(course)`: clear every grid cell referencing the
course and blank its scheduling result. -/
def unscheduleCourse (s : Schedule) (cid : Nat) : Schedule :=
  { (updateCourse s cid fun c =>
      { c with scheduled := false, scheduledSlots := [], scheduledRooms := [] }) with
    grid := fun d t =>
      if d < 5 ∧ t < 13 ∧ s.grid d t = some cid then none else s.grid d t }

/-- `scheduleCourse(course)`: find slots for all sessions, fail outright if
too few, otherwise commit sessions one by one, rolling back everything on
a mid-transaction failure. -/
def scheduleCourse (s : Schedule) (cid : Nat) : Schedule × Bool :=
  match s.courses.find? fun c => c.cid = cid with
  | none => (s, false)
  | some course =>
    let sessionsNeeded := course.classesPerWeek
    let availableSlots := findAvailableTimeSlots s course sessionsNeeded
    if availableSlots.length < sessionsNeeded then (s, false)
    else
      let s1 := updateCourse s cid fun c =>
        { c with scheduledSlots := [], scheduledRooms := [] }
      match sessionsLoop s1 cid true (availableSlots.take sessionsNeeded) with
      | (s2, true) => (updateCourse s2 cid fun c => { c with scheduled := true }, true)
      | (s2, false) => (unscheduleCourse s2 cid, false)

/-- The sort comparator of `generateOptimalSchedule`: labs first, then more
classes per week, then consistent-room courses. -/
def compareCourses (a b : Course) : Int :=
  if a.ctype = CType.lab ∧ b.ctype ≠ CType.lab then -1
  else if a.ctype ≠ CType.lab ∧ b.ctype = CType.lab then 1
  else if b.classesPerWeek < a.classesPerWeek then -1
  else if a.classesPerWeek < b.classesPerWeek then 1
  else if a.consistentRoom ∧ ¬ b.consistentRoom then -1
  else if ¬ a.consistentRoom ∧ b.consistentRoom then 1
  else 0

/-- Stable insertion of a course into an already sorted list: the new
element goes after every element it does not strictly precede. -/
def insertSorted (x : Course) : List Course → List Course
  | [] => [x]
  | y :: ys => if compareCourses x y < 0 then x :: y :: ys else y :: insertSorted x ys

/-- The stable sort performed by `this.courses.sort(...)`. -/
def sortCourses (l : List Course) : List Course :=
  l.foldl (fun acc x => insertSorted x acc) []

/-- Step 3 of `generateOptimalSchedule`: schedule each course in order,
counting successes. -/
def runAll (s : Schedule) : List Nat → Schedule × Nat
  | [] => (s, 0)
  | cid :: rest =>
    let p := scheduleCourse s cid
    let q := runAll p.1 rest
    (q.1, if p.2 then q.2 + 1 else q.2)

/-- `generateOptimalSchedule()`: no-op on an empty course list, otherwise
reset the ledgers and every course's result, sort by priority and
schedule each course greedily. -/
def generateOptimalSchedule (s : Schedule) : Schedule :=
  if s.courses = [] then s
  else
    let reset : Schedule :=
      { courses := s.courses.map fun c =>
          { c with scheduled := false, scheduledSlots := [], scheduledRooms := [] }
        grid := initializeGrid
        rooms := initializeRooms }
    let sorted : Schedule := { reset with courses := sortCourses reset.courses }
    (runAll sorted (sorted.courses.map fun c => c.cid)).1

/-- `addCourse(course)`: push the freshly constructed course. -/
def addCourse (s : Schedule) (c : Course) : Schedule :=
  { s with courses := s.courses ++ [c] }

/-- `removeCourse(index)`: unschedule if scheduled, then splice the course
out of the collection. -/
def removeCourse (s : Schedule) (index : Nat) : Schedule :=
  match s.courses[index]? with
  | none => s
  | some course =>
    let s1 := if course.scheduled then unscheduleCourse s course.cid else s
    { s1 with courses := s1.courses.eraseIdx index }

/-- `clearSchedule()`: drop all courses and reset both ledgers. -/
def clearSchedule (_s : Schedule) : Schedule :=
  ⟨[], initializeGrid, initializeRooms⟩

/-- The engine operations reachable from the collaborator. -/
inductive EngineOp where
  | add (ctype : CType) (classesPerWeek : Nat) (consistentRoom : Bool)
      (floor room : Option Nat)
  | remove (index : Nat)
  | generate
  | clear
deriving DecidableEq, Repr

/-- A cid strictly larger than every existing cid, standing for the fresh
object identity of `new Course(...)`. -/
def freshCid (s : Schedule) : Nat :=
  (s.courses.map fun c => c.cid).foldr max 0 + 1

def applyOp (s : Schedule) : EngineOp → Schedule
  | .add ty n b fl rm => addCourse s (Course.new (freshCid s) ty n b fl rm)
  | .remove i => removeCourse s i
  | .generate => generateOptimalSchedule s
  | .clear => clearSchedule s

def applyOps (s : Schedule) (ops : List EngineOp) : Schedule :=
  ops.foldl applyOp s

/-- The state of the page before any interaction. -/
def initState : Schedule :=
  ⟨[], initializeGrid, initializeRooms⟩

/-- Intake validity enforced by the collaborator (form options): classes
per week 1..5, preferred floor 1..7, preferred room 1..13. -/
def ValidOp : EngineOp → Prop
  | .add _ n _ fl rm =>
      1 ≤ n ∧ n ≤ 5 ∧
        (match fl with
         | some f => 1 ≤ f ∧ f ≤ 7
         | none => True) ∧
        (match rm with
         | some r => 1 ≤ r ∧ r ≤ 13
         | none => True)
  | _ => True

end Part001

namespace ScriptJs

/-- A `Course` object of `src/script.js`: one session per course, a single
floor/room assignment and a single `(day, timeSlot)` result. -/
structure Course where
  cid : Nat
  ctype : Part001.CType
  floor : Option Nat
  room : Option Nat
  scheduled : Bool
  day : Option Nat
  timeIndex : Option Nat
deriving DecidableEq, Repr

/-- `get duration()`: lab courses take 2 slots, theory courses 1. -/
def Course.duration (c : Course) : Nat :=
  if c.ctype = Part001.CType.lab then 2 else 1

/-- The `Course` constructor of `src/script.js`. -/
def Course.new (cid : Nat) (ctype : Part001.CType) (floor room : Option Nat) : Course :=
  ⟨cid, ctype, floor, room, false, none, none⟩

/-- The `Schedule` state of `src/script.js`. -/
structure Schedule where
  courses : List Course
  grid : Nat → Nat → Option Nat
  rooms : Nat → Nat → Bool

/-- `isTimeSlotAvailable(day, timeIndex, duration)` of `src/script.js`:
identical formula to the other engine version. -/
def isTimeSlotAvailable (s : Schedule) (day timeIndex duration : Nat) : Bool :=
  if timeIndex = 6 ∨ (timeIndex < 6 ∧ timeIndex + duration > 6) then false
  else
    (List.range duration).all fun i =>
      decide (timeIndex + i < 13) && (s.grid day (timeIndex + i)).isNone

/-- `findAvailableRoom(floor)` of `src/script.js`: preferred floor only
when given (no fallback), otherwise all floors bottom to top. -/
def findAvailableRoom (s : Schedule) (floor : Option Nat) : Option (Nat × Nat) :=
  match floor with
  | some f => ((List.range' 1 13).find? fun room => s.rooms f room).map fun room => (f, room)
  | none =>
    (List.range' 1 7).findSome? fun f =>
      ((List.range' 1 13).find? fun room => s.rooms f room).map fun room => (f, room)

/-- `findAvailableTimeSlot(course)`: first `(day, timeIndex)` in day-major,
index-ascending order that is available. -/
def findAvailableTimeSlot (s : Schedule) (c : Course) : Option (Nat × Nat) :=
  (List.range 5).findSome? fun day =>
    ((List.range 13).find? fun i => isTimeSlotAvailable s day i c.duration).map
      fun i => (day, i)

/-- `isRoomAvailable(floor, room, day, timeIndex, duration)` of
`src/script.js`: a cell in the span occupied by a course whose
floor/room equal the candidate makes the room unavailable. -/
def isRoomAvailable (s : Schedule) (floor room day timeIndex duration : Nat) : Bool :=
  (List.range duration).all fun i =>
    decide (timeIndex + i < 13) &&
      match s.grid day (timeIndex + i) with
      | none => true
      | some cid =>
        match s.courses.find? fun c => c.cid = cid with
        | none => true
        | some c =>
          !(decide (c.floor = some floor) && decide (c.room = some room))

/-- Replace the course object identified by `cid` in the collection. -/
def updateCourse (s : Schedule) (cid : Nat) (f : Course → Course) : Schedule :=
  { s with courses := s.courses.map fun c => if c.cid = cid then f c else c }

/-- The preferred-room test of `scheduleCourse` in `src/script.js`: the
course names both a floor and a room, the room inventory still shows the
room free and `isRoomAvailable` accepts it. -/
def prefOk (s : Schedule) (course : Course) (day timeIndex : Nat) : Bool :=
  match course.floor, course.room with
  | some f, some r => s.rooms f r && isRoomAvailable s f r day timeIndex course.duration
  | _, _ => false

/-- `scheduleCourse` clears an unusable floor/room preference before
falling back to the room search. -/
def clearPref (course : Course) (ok : Bool) : Course :=
  match course.floor, course.room with
  | some _, some _ => if ok then course else { course with floor := none, room := none }
  | _, _ => course

/-- The room `scheduleCourse` assigns: the preferred floor/room when the
preference test passes, otherwise the room search over the (possibly
cleared) preferred floor. -/
def assignedRoom (s : Schedule) (course : Course) (day timeIndex : Nat) :
    Option (Nat × Nat) :=
  if prefOk s course day timeIndex then
    match course.floor, course.room with
    | some f, some r => some (f, r)
    | _, _ => none
  else findAvailableRoom s (clearPref course (prefOk s course day timeIndex)).floor

/-- `scheduleCourse(course)` of `src/script.js`: find the first slot, pick
a room (preferred floor/room first, clearing the preference when it is
unavailable), commit the grid cells, mark the room used in the room
inventory and record the assignment on the course. -/
def scheduleCourse (s : Schedule) (cid : Nat) : Schedule × Bool :=
  match s.courses.find? fun c => c.cid = cid with
  | none => (s, false)
  | some course =>
    match findAvailableTimeSlot s course with
    | none => (s, false)
    | some (day, timeIndex) =>
      let course1 : Course := clearPref course (prefOk s course day timeIndex)
      match assignedRoom s course day timeIndex with
      | none => (updateCourse s cid fun _ => course1, false)
      | some fr =>
        let course2 : Course :=
          { course1 with
            floor := some fr.1, room := some fr.2, scheduled := true,
            day := some day, timeIndex := some timeIndex }
        let s2 : Schedule :=
          { (updateCourse s cid fun _ => course2) with
            grid := Part001.writeSpan s.grid day timeIndex cid course.duration
            rooms := fun f r => if f = fr.1 ∧ r = fr.2 then false else s.rooms f r }
        (s2, true)

/-- The sort comparator of `generateOptimalSchedule` in `src/script.js`:
labs before theory only. -/
def compareCourses (a b : Course) : Int :=
  if a.ctype = Part001.CType.lab ∧ b.ctype ≠ Part001.CType.lab then -1
  else if a.ctype ≠ Part001.CType.lab ∧ b.ctype = Part001.CType.lab then 1
  else 0

/-- Stable insertion into a sorted list, as performed by the stable
`Array.prototype.sort`. -/
def insertSorted (x : Course) : List Course → List Course
  | [] => [x]
  | y :: ys => if compareCourses x y < 0 then x :: y :: ys else y :: insertSorted x ys

def sortCourses (l : List Course) : List Course :=
  l.foldl (fun acc x => insertSorted x acc) []

/-- The scheduling loop of `generateOptimalSchedule`. -/
def runAll (s : Schedule) : List Nat → Schedule × Nat
  | [] => (s, 0)
  | cid :: rest =>
    let p := scheduleCourse s cid
    let q := runAll p.1 rest
    (q.1, if p.2 then q.2 + 1 else q.2)

/-- `generateOptimalSchedule()` of `src/script.js`: reset the ledgers and
the per-course results (`scheduled`, `day`, `timeSlot` only), sort labs
first, then schedule every course. -/
def generateOptimalSchedule (s : Schedule) : Schedule :=
  if s.courses = [] then s
  else
    let reset : Schedule :=
      { courses := s.courses.map fun c =>
          { c with scheduled := false, day := none, timeIndex := none }
        grid := Part001.initializeGrid
        rooms := Part001.initializeRooms }
    let sorted : Schedule := { reset with courses := sortCourses reset.courses }
    (runAll sorted (sorted.courses.map fun c => c.cid)).1

end ScriptJs

namespace Part001

/-- Modelled from the spec contract for the Time Grid (`isBlocked`):
blocked when the start index is 6, or the half-open span starting below 6
reaches past 6, or a nonempty span runs past the last index 12. -/
def isBlockedSpec (timeIndex duration : Nat) : Bool :=
  decide (timeIndex = 6) ||
    (decide (timeIndex < 6) && decide (6 < timeIndex + duration)) ||
    (decide (0 < duration) && decide (13 < timeIndex + duration))

/-- The grid-occupancy part of the availability check: every cell of the
span is empty. -/
def spanFree (s : Schedule) (day timeIndex duration : Nat) : Bool :=
  (List.range duration).all fun i => (s.grid day (timeIndex + i)).isNone

/-- Characterization of the availability check. -/
theorem avail_iff (s : Schedule) (day t d : Nat) :
    isTimeSlotAvailable s day t d = true ↔
      ¬(t = 6 ∨ (t < 6 ∧ 6 < t + d)) ∧
        ∀ i < d, t + i < 13 ∧ s.grid day (t + i) = none := by
  unfold isTimeSlotAvailable
  split
  · rename_i h
    exact iff_of_false (by simp) fun hc => hc.1 h
  · rename_i h
    rw [List.all_eq_true]
    constructor
    · intro ha
      refine ⟨h, fun i hi => ?_⟩
      have := ha i (List.mem_range.mpr hi)
      simpa using this
    · rintro ⟨-, hall⟩ i hi
      have := hall i (List.mem_range.mp hi)
      simpa using this

theorem isTimeSlotAvailable_eq (s : Schedule) (day t d : Nat) :
    isTimeSlotAvailable s day t d = (!isBlockedSpec t d && spanFree s day t d) := by
  rw [Bool.eq_iff_iff, avail_iff]
  simp only [Bool.and_eq_true, Bool.not_eq_true', isBlockedSpec, spanFree,
    Bool.or_eq_false_iff, Bool.and_eq_false_iff, decide_eq_false_iff_not,
    List.all_eq_true, List.mem_range, Option.isNone_iff_eq_none]
  constructor
  · rintro ⟨hextr, hall⟩
    push_neg at hextr
    refine ⟨⟨⟨hextr.1, ?_⟩, ?_⟩, fun i hi => (hall i hi).2⟩
    · by_cases hlt : t < 6
      · exact Or.inr (by have := hextr.2 hlt; omega)
      · exact Or.inl hlt
    · by_cases hd : 0 < d
      · exact Or.inr (by have := (hall (d - 1) (by omega)).1; omega)
      · exact Or.inl (by omega)
  · rintro ⟨⟨⟨h6, hstr⟩, hpast⟩, hfree⟩
    refine ⟨?_, fun i hi => ⟨?_, hfree i hi⟩⟩
    · rintro (h | ⟨h1, h2⟩)
      · exact h6 h
      · rcases hstr with h | h <;> omega
    · rcases hpast with h | h <;> omega

/-- Closed form of the span-writing loop. -/
theorem writeSpan_eq (g : Nat → Nat → Option Nat) (day t cid : Nat) :
    ∀ dur d u, writeSpan g day t cid dur d u =
      if d = day ∧ t ≤ u ∧ u < t + dur then some cid else g d u := by
  intro dur
  induction dur with
  | zero =>
    intro d u
    rw [writeSpan, if_neg (by omega)]
  | succ n ih =>
    intro d u
    simp only [writeSpan, setCell, ih]
    split_ifs <;> first | rfl | omega

/-- Distinct cids make course records injective in the collection. -/
theorem nodup_cid_inj {l : List Course} (h : (l.map fun c => c.cid).Nodup)
    {a b : Course} (ha : a ∈ l) (hb : b ∈ l) (hcid : a.cid = b.cid) : a = b :=
  List.inj_on_of_nodup_map h ha hb hcid

/-- Looking a member course up by its cid returns exactly that course. -/
theorem find?_cid {l : List Course} (hnd : (l.map fun c => c.cid).Nodup) :
    ∀ {c : Course}, c ∈ l → (l.find? fun x => x.cid = c.cid) = some c := by
  induction l with
  | nil => intro c hc; cases hc
  | cons y tl ih =>
    intro c hc
    by_cases hy : y.cid = c.cid
    · have hcy : c = y := by
        rcases List.mem_cons.mp hc with rfl | htl
        · rfl
        · exact nodup_cid_inj hnd (List.mem_cons_of_mem _ htl) (List.mem_cons_self ..) hy.symm
      subst hcy
      exact List.find?_cons_of_pos _ (by simp)
    · have hctl : c ∈ tl := by
        rcases List.mem_cons.mp hc with rfl | htl
        · exact absurd rfl hy
        · exact htl
      rw [List.find?_cons_of_neg _ (by simpa using hy)]
      exact ih (by simpa using (List.nodup_cons.mp (by simpa using hnd)).2) hctl

/-- A successful `find?` over `range' a n` returns the least index
satisfying the predicate, within bounds. -/
theorem find?_range'_spec {p : Nat → Bool} :
    ∀ n a i, (List.range' a n).find? p = some i →
      p i = true ∧ a ≤ i ∧ i < a + n ∧ ∀ j, a ≤ j → j < i → p j = false := by
  intro n
  induction n with
  | zero => intro a i h; simp at h
  | succ n ih =>
    intro a i h
    rw [List.range'_succ] at h
    by_cases hpa : p a = true
    · rw [List.find?_cons_of_pos _ hpa] at h
      cases h
      exact ⟨hpa, le_refl _, by omega, fun j h1 h2 => by omega⟩
    · rw [List.find?_cons_of_neg _ (by simpa using hpa)] at h
      obtain ⟨h1, h2, h3, h4⟩ := ih (a + 1) i h
      refine ⟨h1, by omega, by omega, fun j hj1 hj2 => ?_⟩
      by_cases hja : j = a
      · subst hja; simpa using hpa
      · exact h4 j (by omega) hj2

/-- What `firstSlotOnDay` returns: the least available index on the day. -/
theorem firstSlotOnDay_spec {s : Schedule} {day dur i : Nat}
    (h : firstSlotOnDay s day dur = some i) :
    isTimeSlotAvailable s day i dur = true ∧ i < 13 ∧
      ∀ j < i, isTimeSlotAvailable s day j dur = false := by
  unfold firstSlotOnDay at h
  rw [List.range_eq_range'] at h
  obtain ⟨h1, h2, h3, h4⟩ := find?_range'_spec 13 0 i h
  exact ⟨h1, by omega, fun j hj => h4 j (by omega) hj⟩

/-- What `findFrom` returns: an available index at or after `start`. -/
theorem findFrom_spec {s : Schedule} {day dur start i : Nat}
    (h : findFrom s day dur start = some i) :
    isTimeSlotAvailable s day i dur = true ∧ start ≤ i ∧ i < 13 := by
  unfold findFrom at h
  obtain ⟨h1, h2, h3, -⟩ := find?_range'_spec (13 - start) start i h
  exact ⟨h1, h2, by omega⟩

/-- Every element produced by the phase 1/2 loop is either carried over
from the accumulator or is the first available slot of one of the
scanned days. -/
theorem scanDays_mem {s : Schedule} {dur count : Nat} :
    ∀ ds acc (p : Nat × Nat), p ∈ scanDays s dur count acc ds →
      p ∈ acc ∨ (p.1 ∈ ds ∧ firstSlotOnDay s p.1 dur = some p.2) := by
  intro ds
  induction ds with
  | nil =>
    intro acc p h
    exact Or.inl (by simpa [scanDays] using h)
  | cons d rest ih =>
    intro acc p h
    rw [scanDays] at h
    split at h
    · exact Or.inl h
    · cases hfs : firstSlotOnDay s d dur with
      | some i =>
        rw [hfs] at h
        rcases ih _ _ h with hin | ⟨hd, hs⟩
        · rcases List.mem_append.mp hin with h1 | h2
          · exact Or.inl h1
          · have hp : p = (d, i) := by simpa using h2
            subst hp
            exact Or.inr ⟨List.mem_cons_self .., hfs⟩
        · exact Or.inr ⟨List.mem_cons_of_mem _ hd, hs⟩
      | none =>
        rw [hfs] at h
        rcases ih _ _ h with h1 | ⟨hd, hs⟩
        · exact Or.inl h1
        · exact Or.inr ⟨List.mem_cons_of_mem _ hd, hs⟩

/-- The phase 1/2 loop only appends to its accumulator. -/
theorem scanDays_prefix {s : Schedule} {dur count : Nat} :
    ∀ ds acc, ∃ tail, scanDays s dur count acc ds = acc ++ tail := by
  intro ds
  induction ds with
  | nil => intro acc; exact ⟨[], by simp [scanDays]⟩
  | cons d rest ih =>
    intro acc
    rw [scanDays]
    split
    · exact ⟨[], by simp⟩
    · cases hfs : firstSlotOnDay s d dur with
      | some i =>
        obtain ⟨t, ht⟩ := ih (acc ++ [(d, i)])
        exact ⟨(d, i) :: t, by simp [ht]⟩
      | none => exact ih acc

/-- The phase 1/2 loop never exceeds `count` elements (nor shrinks below
an oversized accumulator). -/
theorem scanDays_length {s : Schedule} {dur count : Nat} :
    ∀ ds acc, (scanDays s dur count acc ds).length ≤ max acc.length count := by
  intro ds
  induction ds with
  | nil => intro acc; simp [scanDays]
  | cons d rest ih =>
    intro acc
    by_cases hc : count ≤ acc.length
    · rw [scanDays, if_pos hc]
      simp
    · cases hfs : firstSlotOnDay s d dur with
      | some i =>
        rw [scanDays, if_neg hc, hfs]
        show (scanDays s dur count (acc ++ [(d, i)]) rest).length ≤ max acc.length count
        have := ih (acc ++ [(d, i)])
        simp only [List.length_append, List.length_cons, List.length_nil] at this
        omega
      | none =>
        rw [scanDays, if_neg hc, hfs]
        exact ih acc

/-- When the break-at-count condition can never fire, the phase 1/2 loop
collects the first available slot of every scanned day. -/
theorem scanDays_full {s : Schedule} {dur count : Nat} :
    ∀ ds acc, acc.length + ds.length ≤ count →
      scanDays s dur count acc ds =
        acc ++ ds.filterMap fun d => (firstSlotOnDay s d dur).map fun i => (d, i) := by
  intro ds
  induction ds with
  | nil => intro acc h; simp [scanDays]
  | cons d rest ih =>
    intro acc h
    have hc : ¬ count ≤ acc.length := by
      simp only [List.length_cons] at h
      omega
    cases hfs : firstSlotOnDay s d dur with
    | some i =>
      rw [scanDays, if_neg hc, hfs]
      show scanDays s dur count (acc ++ [(d, i)]) rest = _
      rw [ih (acc ++ [(d, i)]) (by simp only [List.length_append,
        List.length_cons, List.length_nil] at h ⊢; omega)]
      simp [List.filterMap_cons, hfs]
    | none =>
      rw [scanDays, if_neg hc, hfs]
      show scanDays s dur count acc rest = _
      rw [ih acc (by simp only [List.length_cons] at h; omega)]
      simp [List.filterMap_cons, hfs]

/-- The phase 1/2 loop keeps the scanned days pairwise distinct. -/
theorem scanDays_nodup_days {s : Schedule} {dur count : Nat} :
    ∀ ds acc, ((acc.map fun p : Nat × Nat => p.1).Nodup) → ds.Nodup →
      (∀ d ∈ ds, d ∉ acc.map fun p : Nat × Nat => p.1) →
      ((scanDays s dur count acc ds).map fun p => p.1).Nodup := by
  intro ds
  induction ds with
  | nil => intro acc ha _ _; simpa [scanDays] using ha
  | cons d rest ih =>
    intro acc ha hds hdisj
    by_cases hc : count ≤ acc.length
    · rw [scanDays, if_pos hc]
      exact ha
    · cases hfs : firstSlotOnDay s d dur with
      | some i =>
        rw [scanDays, if_neg hc, hfs]
        show ((scanDays s dur count (acc ++ [(d, i)]) rest).map fun p => p.1).Nodup
        refine ih (acc ++ [(d, i)]) ?_ (List.nodup_cons.mp hds).2 ?_
        · simp only [List.map_append, List.map_cons, List.map_nil]
          rw [List.nodup_append]
          refine ⟨ha, List.nodup_singleton _, ?_⟩
          intro x hx hx2
          have hxd : x = d := by simpa using hx2
          exact hdisj d (List.mem_cons_self ..) (hxd ▸ hx)
        · intro d2 hd2
          simp only [List.map_append, List.map_cons, List.map_nil, List.mem_append]
          rintro (hin | hin)
          · exact hdisj d2 (List.mem_cons_of_mem _ hd2) hin
          · have hd2d : d2 = d := by simpa using hin
            exact (List.nodup_cons.mp hds).1 (hd2d ▸ hd2)
      | none =>
        rw [scanDays, if_neg hc, hfs]
        exact ih acc ha (List.nodup_cons.mp hds).2
          fun d2 hd2 => hdisj d2 (List.mem_cons_of_mem _ hd2)

theorem scanUsedDays_stop {s : Schedule} {dur count : Nat} {acc : List (Nat × Nat)}
    {d : Nat} {rest : List Nat} (hc : count ≤ acc.length) :
    scanUsedDays s dur count acc (d :: rest) = acc := by
  rw [scanUsedDays, if_pos hc]

theorem scanUsedDays_cons_none {s : Schedule} {dur count : Nat} {acc : List (Nat × Nat)}
    {d : Nat} {rest : List Nat} (hc : ¬ count ≤ acc.length)
    (hq : (acc.find? fun q => q.1 = d) = none) :
    scanUsedDays s dur count acc (d :: rest) = scanUsedDays s dur count acc rest := by
  rw [scanUsedDays, if_neg hc, hq]

theorem scanUsedDays_cons_some {s : Schedule} {dur count : Nat} {acc : List (Nat × Nat)}
    {d : Nat} {rest : List Nat} {q0 : Nat × Nat} (hc : ¬ count ≤ acc.length)
    (hq : (acc.find? fun q => q.1 = d) = some q0) :
    scanUsedDays s dur count acc (d :: rest) =
      match findFrom s d dur (q0.2 + dur) with
      | some i => scanUsedDays s dur count (acc ++ [(d, i)]) rest
      | none => scanUsedDays s dur count acc rest := by
  rw [scanUsedDays, if_neg hc, hq]

/-- Every element produced by the phase 3 loop is either carried over or
an available slot on an already-used day, strictly past the first chosen
slot of that day plus the duration. -/
theorem scanUsedDays_mem {s : Schedule} {dur count : Nat} :
    ∀ ds acc (p : Nat × Nat), p ∈ scanUsedDays s dur count acc ds →
      p ∈ acc ∨ (p.1 ∈ ds ∧ isTimeSlotAvailable s p.1 p.2 dur = true ∧
        ∃ q ∈ acc, q.1 = p.1 ∧ q.2 + dur ≤ p.2) := by
  intro ds
  induction ds with
  | nil =>
    intro acc p h
    exact Or.inl (by simpa [scanUsedDays] using h)
  | cons d rest ih =>
    intro acc p h
    by_cases hc : count ≤ acc.length
    · rw [scanUsedDays_stop hc] at h
      exact Or.inl h
    · cases hq : acc.find? fun q => q.1 = d with
      | none =>
        rw [scanUsedDays_cons_none hc hq] at h
        rcases ih _ _ h with h1 | ⟨h2, h3, q, hq1, hq2⟩
        · exact Or.inl h1
        · exact Or.inr ⟨List.mem_cons_of_mem _ h2, h3, q, hq1, hq2⟩
      | some q0 =>
        cases hff : findFrom s d dur (q0.2 + dur) with
        | none =>
          rw [scanUsedDays_cons_some hc hq, hff] at h
          rcases ih _ _ h with h1 | ⟨h2, h3, q, hq1, hq2⟩
          · exact Or.inl h1
          · exact Or.inr ⟨List.mem_cons_of_mem _ h2, h3, q, hq1, hq2⟩
        | some i =>
          rw [scanUsedDays_cons_some hc hq, hff] at h
          rcases ih _ _ h with h1 | ⟨h2, h3, q, hq1, hq2⟩
          · rcases List.mem_append.mp h1 with h1 | h1
            · exact Or.inl h1
            · have hp : p = (d, i) := by simpa using h1
              subst hp
              obtain ⟨ha, hge, -⟩ := findFrom_spec hff
              refine Or.inr ⟨List.mem_cons_self .., ha, q0,
                List.mem_of_find?_eq_some hq, ?_, hge⟩
              simpa using List.find?_some hq
          · rcases List.mem_append.mp hq1 with hq1 | hq1
            · exact Or.inr ⟨List.mem_cons_of_mem _ h2, h3, q, hq1, hq2⟩
            · have hqdi : q = (d, i) := by simpa using hq1
              subst hqdi
              obtain ⟨-, hge, -⟩ := findFrom_spec hff
              refine Or.inr ⟨List.mem_cons_of_mem _ h2, h3, q0,
                List.mem_of_find?_eq_some hq, ?_, by omega⟩
              have := List.find?_some hq
              simp only [decide_eq_true_eq] at this
              omega

/-- The phase 3 loop only appends to its accumulator. -/
theorem scanUsedDays_prefix {s : Schedule} {dur count : Nat} :
    ∀ ds acc, ∃ tail, scanUsedDays s dur count acc ds = acc ++ tail := by
  intro ds
  induction ds with
  | nil => intro acc; exact ⟨[], by simp [scanUsedDays]⟩
  | cons d rest ih =>
    intro acc
    by_cases hc : count ≤ acc.length
    · rw [scanUsedDays_stop hc]
      exact ⟨[], by simp⟩
    · cases hq : acc.find? fun q => q.1 = d with
      | none =>
        rw [scanUsedDays_cons_none hc hq]
        exact ih acc
      | some q0 =>
        cases hff : findFrom s d dur (q0.2 + dur) with
        | none =>
          rw [scanUsedDays_cons_some hc hq, hff]
          exact ih acc
        | some i =>
          rw [scanUsedDays_cons_some hc hq, hff]
          obtain ⟨t, ht⟩ := ih (acc ++ [(d, i)])
          exact ⟨(d, i) :: t, by simpa using ht⟩

/-- The phase 3 loop never exceeds `count` elements. -/
theorem scanUsedDays_length {s : Schedule} {dur count : Nat} :
    ∀ ds acc, (scanUsedDays s dur count acc ds).length ≤ max acc.length count := by
  intro ds
  induction ds with
  | nil => intro acc; simp [scanUsedDays]
  | cons d rest ih =>
    intro acc
    by_cases hc : count ≤ acc.length
    · rw [scanUsedDays_stop hc]
      simp
    · cases hq : acc.find? fun q => q.1 = d with
      | none =>
        rw [scanUsedDays_cons_none hc hq]
        exact ih acc
      | some q0 =>
        cases hff : findFrom s d dur (q0.2 + dur) with
        | none =>
          rw [scanUsedDays_cons_some hc hq, hff]
          exact ih acc
        | some i =>
          rw [scanUsedDays_cons_some hc hq, hff]
          show (scanUsedDays s dur count (acc ++ [(d, i)]) rest).length ≤
            max acc.length count
          have := ih (acc ++ [(d, i)])
          simp only [List.length_append, List.length_cons, List.length_nil] at this
          omega

/-- The phase 3 loop keeps the accumulated pairs pairwise distinct, given
at most one accumulated slot per day still to scan. -/
theorem scanUsedDays_nodup {s : Schedule} {dur count : Nat} (hdur : 0 < dur) :
    ∀ ds acc, acc.Nodup → ds.Nodup →
      (∀ d ∈ ds, ∀ p ∈ acc, ∀ q ∈ acc, p.1 = d → q.1 = d → p = q) →
      (scanUsedDays s dur count acc ds).Nodup := by
  intro ds
  induction ds with
  | nil => intro acc ha _ _; simpa [scanUsedDays] using ha
  | cons d rest ih =>
    intro acc ha hds huniq
    by_cases hc : count ≤ acc.length
    · rw [scanUsedDays_stop hc]
      exact ha
    · cases hq : acc.find? fun q => q.1 = d with
      | none =>
        rw [scanUsedDays_cons_none hc hq]
        exact ih acc ha (List.nodup_cons.mp hds).2
          fun d2 hd2 p hp q hqm => huniq d2 (List.mem_cons_of_mem _ hd2) p hp q hqm
      | some q0 =>
        cases hff : findFrom s d dur (q0.2 + dur) with
        | none =>
          rw [scanUsedDays_cons_some hc hq, hff]
          exact ih acc ha (List.nodup_cons.mp hds).2
            fun d2 hd2 p hp q hqm => huniq d2 (List.mem_cons_of_mem _ hd2) p hp q hqm
        | some i =>
          rw [scanUsedDays_cons_some hc hq, hff]
          show (scanUsedDays s dur count (acc ++ [(d, i)]) rest).Nodup
          have hq0m : q0 ∈ acc := List.mem_of_find?_eq_some hq
          have hq0d : q0.1 = d := by simpa using List.find?_some hq
          obtain ⟨-, hge, -⟩ := findFrom_spec hff
          refine ih (acc ++ [(d, i)]) ?_ (List.nodup_cons.mp hds).2 ?_
          · rw [List.nodup_append]
            refine ⟨ha, List.nodup_singleton _, ?_⟩
            intro x hx hx2
            have hxdi : x = (d, i) := by simpa using hx2
            subst hxdi
            have hdq : (d, i) = q0 :=
              huniq d (List.mem_cons_self ..) (d, i) hx q0 hq0m rfl hq0d
            have : i = q0.2 := congrArg Prod.snd hdq
            omega
          · intro d2 hd2 p hp q hqm hpd hqd
            have hd2d : d2 ≠ d := fun h => (List.nodup_cons.mp hds).1 (h ▸ hd2)
            rcases List.mem_append.mp hp with hp | hp
            · rcases List.mem_append.mp hqm with hqm | hqm
              · exact huniq d2 (List.mem_cons_of_mem _ hd2) p hp q hqm hpd hqd
              · have hqdi : q = (d, i) := by simpa using hqm
                subst hqdi
                simp only at hqd
                exact absurd hqd.symm hd2d
            · have hpdi : p = (d, i) := by simpa using hp
              subst hpdi
              simp only at hpd
              exact absurd hpd.symm hd2d

/-- Every preferred day index is a valid weekday. -/
theorem preferredDays_lt {count : Nat} : ∀ d ∈ preferredDays count, d < 5 := by
  intro d hd
  obtain ⟨i, -, rfl⟩ := List.mem_map.mp hd
  exact Nat.mod_lt _ (by omega)

theorem preferredDays_length (count : Nat) : (preferredDays count).length = count := by
  simp [preferredDays]

/-- For 1..5 classes per week the preferred days are pairwise distinct. -/
theorem preferredDays_nodup {count : Nat} (h1 : 1 ≤ count) (h5 : count ≤ 5) :
    (preferredDays count).Nodup := by
  interval_cases count <;> decide

/-- A course session always takes one or two slots. -/
theorem duration_pos (c : Course) : 0 < c.duration := by
  unfold Course.duration
  split <;> omega

theorem duration_le_two (c : Course) : c.duration ≤ 2 := by
  unfold Course.duration
  split <;> omega

/-- Facts about the phase 1 output. -/
theorem phase1_avail {s : Schedule} {c : Course} {count : Nat} :
    ∀ q ∈ scanDays s c.duration count [] (preferredDays count),
      q.1 < 5 ∧ isTimeSlotAvailable s q.1 q.2 c.duration = true := by
  intro q hq
  rcases scanDays_mem _ _ _ hq with h | ⟨hd, hs⟩
  · cases h
  · exact ⟨preferredDays_lt _ hd, (firstSlotOnDay_spec hs).1⟩

/-- Facts about the phase 2 output (run on top of phase 1). -/
theorem phase2_avail {s : Schedule} {c : Course} {count : Nat} :
    ∀ q ∈ scanDays s c.duration count
        (scanDays s c.duration count [] (preferredDays count))
        ((List.range 5).filter fun d => ¬ (preferredDays count).contains d),
      q.1 < 5 ∧ isTimeSlotAvailable s q.1 q.2 c.duration = true := by
  intro q hq
  rcases scanDays_mem _ _ _ hq with h | ⟨hd, hs⟩
  · exact phase1_avail _ h
  · exact ⟨List.mem_range.mp (List.mem_filter.mp hd).1, (firstSlotOnDay_spec hs).1⟩

/-- Every slot returned by `findAvailableTimeSlots` lies on a valid
weekday and passed the availability check against the inspected state. -/
theorem findSlots_avail {s : Schedule} {c : Course} {count : Nat} :
    ∀ p ∈ findAvailableTimeSlots s c count,
      p.1 < 5 ∧ isTimeSlotAvailable s p.1 p.2 c.duration = true := by
  have key : ∀ mid : List (Nat × Nat),
      (∀ q ∈ mid, q.1 < 5 ∧ isTimeSlotAvailable s q.1 q.2 c.duration = true) →
      ∀ p ∈ (if mid.length < count then
          scanUsedDays s c.duration count mid (mid.map fun p => p.1) else mid),
        p.1 < 5 ∧ isTimeSlotAvailable s p.1 p.2 c.duration = true := by
    intro mid hmid p hp
    split at hp
    · rcases scanUsedDays_mem _ _ _ hp with h | ⟨hd, hav, -⟩
      · exact hmid _ h
      · obtain ⟨q, hq, hq1⟩ := List.mem_map.mp hd
        exact ⟨hq1 ▸ (hmid q hq).1, hav⟩
    · exact hmid _ hp
  intro p hp
  simp only [findAvailableTimeSlots] at hp
  split at hp
  · exact key _ phase2_avail p hp
  · exact phase1_avail p hp

/-- `findAvailableTimeSlots` returns at most `count` slots. -/
theorem findSlots_length_le (s : Schedule) (c : Course) (count : Nat) :
    (findAvailableTimeSlots s c count).length ≤ count := by
  have key : ∀ mid : List (Nat × Nat), mid.length ≤ count →
      (if mid.length < count then
        scanUsedDays s c.duration count mid (mid.map fun p => p.1) else mid).length ≤
        count := by
    intro mid hm
    split
    · rename_i hlen
      have hb := @scanUsedDays_length s c.duration count (mid.map fun p => p.1) mid
      rw [Nat.max_eq_right (Nat.le_of_lt hlen)] at hb
      exact hb
    · exact hm
  have l1 : (scanDays s c.duration count [] (preferredDays count)).length ≤ count := by
    have h := @scanDays_length s c.duration count (preferredDays count) []
    simpa using h
  simp only [findAvailableTimeSlots]
  split
  · rename_i hlen
    refine key _ ?_
    have hb := @scanDays_length s c.duration count
      ((List.range 5).filter fun d => ¬ (preferredDays count).contains d)
      (scanDays s c.duration count [] (preferredDays count))
    rw [Nat.max_eq_right (Nat.le_of_lt hlen)] at hb
    exact hb
  · exact l1

/-- For 1..5 requested sessions the returned `(day, slotIndex)` pairs are
pairwise distinct. -/
theorem findSlots_nodup {s : Schedule} {c : Course} {count : Nat}
    (h1 : 1 ≤ count) (h5 : count ≤ 5) :
    (findAvailableTimeSlots s c count).Nodup := by
  have hdur : 0 < c.duration := duration_pos c
  have key : ∀ mid : List (Nat × Nat), ((mid.map fun p => p.1).Nodup) →
      (if mid.length < count then
        scanUsedDays s c.duration count mid (mid.map fun p => p.1) else mid).Nodup := by
    intro mid hm
    split
    · refine scanUsedDays_nodup hdur _ _ (hm.of_map _) hm ?_
      intro d hd p hp q hq hpd hqd
      exact List.inj_on_of_nodup_map hm hp hq (hpd.trans hqd.symm)
    · exact hm.of_map _
  have n1 : ((scanDays s c.duration count [] (preferredDays count)).map
      fun p => p.1).Nodup :=
    scanDays_nodup_days _ _ (by simp) (preferredDays_nodup h1 h5) (by simp)
  have n2 : ((scanDays s c.duration count
      (scanDays s c.duration count [] (preferredDays count))
      ((List.range 5).filter fun d => ¬ (preferredDays count).contains d)).map
      fun p => p.1).Nodup := by
    refine scanDays_nodup_days _ _ n1 ((List.nodup_range 5).filter _) ?_
    intro d hd hmem
    obtain ⟨q, hq, hqd⟩ := List.mem_map.mp hmem
    have hmem2 : q.1 ∈ preferredDays count := by
      rcases scanDays_mem _ _ _ hq with h | ⟨h, -⟩
      · cases h
      · exact h
    have hnc := (List.mem_filter.mp hd).2
    simp only [decide_eq_true_eq] at hnc
    exact hnc (List.elem_eq_true_of_mem (hqd ▸ hmem2))
  simp only [findAvailableTimeSlots]
  split
  · exact key _ n2
  · exact n1.of_map _

/-- Availability of a nonempty span forces the static slot constraints:
no index of the span is 6 and the span stays inside 0..12. -/
theorem avail_slotOk (s : Schedule) (day t d : Nat) (hd : 0 < d)
    (h : isTimeSlotAvailable s day t d = true) :
    (∀ i < d, t + i ≠ 6) ∧ t + d ≤ 13 := by
  rw [avail_iff] at h
  rcases h with ⟨hextr, hall⟩
  push_neg at hextr
  constructor
  · intro i hi h6
    by_cases hlt : t < 6
    · have := hextr.2 hlt; omega
    · have := hextr.1; omega
  · have := (hall (d - 1) (by omega)).1
    omega

/-- Availability means every cell of the span is empty (and in range). -/
theorem avail_spanFree (s : Schedule) (day t d : Nat)
    (h : isTimeSlotAvailable s day t d = true) :
    ∀ i < d, t + i < 13 ∧ s.grid day (t + i) = none :=
  ((avail_iff s day t d).mp h).2

/-- A grid position lies in the span of one of the listed sessions. -/
def SpanMem (slots : List (Nat × Nat)) (dur d t : Nat) : Prop :=
  ∃ p ∈ slots, p.1 = d ∧ p.2 ≤ t ∧ t < p.2 + dur

/-- Static validity of a session start index: the span avoids the
extra-mural index 6 and stays inside the 13 slots. -/
def SlotOk (t dur : Nat) : Prop :=
  (∀ i < dur, t + i ≠ 6) ∧ t + dur ≤ 13

theorem spanMem_nil {dur d t : Nat} : ¬ SpanMem [] dur d t := by
  rintro ⟨p, hp, -⟩
  cases hp

theorem spanMem_append {l1 l2 : List (Nat × Nat)} {dur d t : Nat} :
    SpanMem (l1 ++ l2) dur d t ↔ SpanMem l1 dur d t ∨ SpanMem l2 dur d t := by
  constructor
  · rintro ⟨p, hp, h⟩
    rcases List.mem_append.mp hp with h1 | h1
    · exact Or.inl ⟨p, h1, h⟩
    · exact Or.inr ⟨p, h1, h⟩
  · rintro (⟨p, hp, h⟩ | ⟨p, hp, h⟩)
    · exact ⟨p, List.mem_append_left _ hp, h⟩
    · exact ⟨p, List.mem_append_right _ hp, h⟩

theorem spanMem_singleton {q : Nat × Nat} {dur d t : Nat} :
    SpanMem [q] dur d t ↔ q.1 = d ∧ q.2 ≤ t ∧ t < q.2 + dur := by
  constructor
  · rintro ⟨p, hp, h⟩
    have : p = q := by simpa using hp
    exact this ▸ h
  · intro h
    exact ⟨q, List.mem_singleton_self _, h⟩

/-- The state invariant maintained by every engine operation of the
`part_001` engine. -/
structure Inv (s : Schedule) : Prop where
  nodup : (s.courses.map fun c => c.cid).Nodup
  wf : ∀ c ∈ s.courses, 1 ≤ c.classesPerWeek ∧ c.classesPerWeek ≤ 5 ∧
    (∀ f, c.floor = some f → 1 ≤ f ∧ f ≤ 7) ∧
    (∀ r, c.room = some r → 1 ≤ r ∧ r ≤ 13)
  roomsWf : ∀ c ∈ s.courses, ∀ e ∈ c.scheduledRooms,
    e.1 < 5 ∧ 1 ≤ e.2.1 ∧ e.2.1 ≤ 7 ∧ 1 ≤ e.2.2 ∧ e.2.2 ≤ 13
  schedIff : ∀ c ∈ s.courses,
    c.scheduled = true ↔ c.scheduledSlots.length = c.classesPerWeek
  unschedEmpty : ∀ c ∈ s.courses, c.scheduled = false →
    c.scheduledSlots = [] ∧ c.scheduledRooms = []
  slotOk : ∀ c ∈ s.courses, ∀ p ∈ c.scheduledSlots, p.1 < 5 ∧ SlotOk p.2 c.duration
  gridCover : ∀ c ∈ s.courses, ∀ p ∈ c.scheduledSlots, ∀ i < c.duration,
    s.grid p.1 (p.2 + i) = some c.cid
  gridSound : ∀ d t cid, s.grid d t = some cid →
    ∃ c ∈ s.courses, c.cid = cid ∧ SpanMem c.scheduledSlots c.duration d t
  roomsEq : s.rooms = initializeRooms

theorem inv_initState : Inv initState := by
  refine ⟨?_, ?_, ?_, ?_, ?_, ?_, ?_, ?_, rfl⟩ <;>
    simp [initState, initializeGrid]

/-- Every member of a list is bounded by the `foldr max` over it. -/
theorem le_foldr_max : ∀ (l : List Nat), ∀ x ∈ l, x ≤ l.foldr max 0 := by
  intro l
  induction l with
  | nil => intro x hx; cases hx
  | cons a tl ih =>
    intro x hx
    rcases List.mem_cons.mp hx with rfl | hx
    · exact le_max_left _ _
    · exact le_trans (ih x hx) (le_max_right _ _)

theorem freshCid_not_mem (s : Schedule) :
    freshCid s ∉ s.courses.map fun c => c.cid := by
  intro h
  have := le_foldr_max _ _ h
  unfold freshCid at this
  omega

/-- Removing the element at a position keeps every other member. -/
theorem mem_eraseIdx_of_ne {α : Type} :
    ∀ (l : List α) (i : Nat) (a : α), a ∈ l → l[i]? ≠ some a → a ∈ l.eraseIdx i := by
  intro l
  induction l with
  | nil => intro i a ha; cases ha
  | cons x tl ih =>
    intro i a ha hne
    cases i with
    | zero =>
      rcases List.mem_cons.mp ha with rfl | ha2
      · exact absurd (by simp) hne
      · simpa [List.eraseIdx] using ha2
    | succ j =>
      rcases List.mem_cons.mp ha with rfl | ha2
      · simp [List.eraseIdx]
      · have : a ∈ tl.eraseIdx j := ih j a ha2 (by simpa using hne)
        simp [List.eraseIdx, this]

/-- Updating the same cid twice collapses to the second update. -/
theorem map_update_update (l : List Course) (cid : Nat) (a b : Course)
    (ha : a.cid = cid) :
    ((l.map fun c => if c.cid = cid then a else c).map
      fun c => if c.cid = cid then b else c) =
      l.map fun c => if c.cid = cid then b else c := by
  rw [List.map_map]
  apply List.map_congr_left
  intro c _
  by_cases h : c.cid = cid
  · simp [Function.comp, h, ha]
  · simp [Function.comp, h]

/-- Replacing a member by itself is the identity. -/
theorem map_update_self {l : List Course} {a : Course}
    (hnd : (l.map fun c => c.cid).Nodup) (hmem : a ∈ l) :
    (l.map fun c => if c.cid = a.cid then a else c) = l := by
  have : ∀ c ∈ l, (if c.cid = a.cid then a else c) = c := by
    intro c hc
    by_cases h : c.cid = a.cid
    · rw [if_pos h, nodup_cid_inj hnd hmem hc h.symm]
    · rw [if_neg h]
  rw [List.map_congr_left this]
  simp

/-- The cid sequence is untouched by a cid-preserving update. -/
theorem map_update_cids (l : List Course) (cid : Nat) (a : Course)
    (ha : a.cid = cid) :
    ((l.map fun c => if c.cid = cid then a else c).map fun c => c.cid) =
      l.map fun c => c.cid := by
  rw [List.map_map]
  apply List.map_congr_left
  intro c _
  by_cases h : c.cid = cid
  · simp [Function.comp, h, ha]
  · simp [Function.comp, h]

/-- Equal course types give equal durations. -/
theorem duration_congr {a b : Course} (h : a.ctype = b.ctype) :
    a.duration = b.duration := by
  unfold Course.duration
  rw [h]

/-- `upsertRoom` preserves a per-entry property that also holds for the
new entry. -/
theorem upsertRoom_wf {P : Nat × Nat × Nat → Prop} {day f r : Nat} :
    ∀ rs : List (Nat × Nat × Nat), (∀ e ∈ rs, P e) → P (day, f, r) →
      ∀ e ∈ upsertRoom day f r rs, P e := by
  intro rs
  induction rs with
  | nil =>
    intro _ hnew e he
    have : e = (day, f, r) := by simpa [upsertRoom] using he
    exact this ▸ hnew
  | cons x tl ih =>
    intro hall hnew e he
    rw [upsertRoom] at he
    split at he
    · rcases List.mem_cons.mp he with rfl | he2
      · exact hnew
      · exact hall e (List.mem_cons_of_mem _ he2)
    · rcases List.mem_cons.mp he with rfl | he2
      · exact hall e (List.mem_cons_self ..)
      · exact ih (fun e2 he3 => hall e2 (List.mem_cons_of_mem _ he3)) hnew e he2

/-- An unscheduled course owns no grid cell. -/
theorem no_cells_of_unscheduled {s : Schedule} (hinv : Inv s) {c : Course}
    (hc : c ∈ s.courses) (hu : c.scheduled = false) :
    ∀ d t, s.grid d t ≠ some c.cid := by
  intro d t h
  obtain ⟨c2, hc2, hcid, hspan⟩ := hinv.gridSound d t c.cid h
  have : c2 = c := nodup_cid_inj hinv.nodup hc2 hc hcid
  subst this
  rw [(hinv.unschedEmpty _ hc2 hu).1] at hspan
  exact spanMem_nil hspan

/-- The cid sequence survives any cid-preserving pointwise update. -/
theorem map_reset_cids (l : List Course) (cid : Nat) (f : Course → Course)
    (hf : ∀ c, (f c).cid = c.cid) :
    ((l.map fun c => if c.cid = cid then f c else c).map fun c => c.cid) =
      l.map fun c => c.cid := by
  rw [List.map_map]
  apply List.map_congr_left
  intro c _
  by_cases h : c.cid = cid <;> simp [Function.comp, h, hf]

/-- Adding a freshly constructed, intake-valid course preserves the
invariant. -/
theorem addCourse_inv {s : Schedule} (hinv : Inv s) {ty : CType} {n : Nat} {b : Bool}
    {fl rm : Option Nat} (hn1 : 1 ≤ n) (hn5 : n ≤ 5)
    (hfl : ∀ f, fl = some f → 1 ≤ f ∧ f ≤ 7)
    (hrm : ∀ r, rm = some r → 1 ≤ r ∧ r ≤ 13) :
    Inv (addCourse s (Course.new (freshCid s) ty n b fl rm)) := by
  constructor
  · rw [show (addCourse s (Course.new (freshCid s) ty n b fl rm)).courses
        = s.courses ++ [Course.new (freshCid s) ty n b fl rm] from rfl,
      List.map_append, List.nodup_append]
    refine ⟨hinv.nodup, by simp, ?_⟩
    intro x hx hx2
    have hx3 : x = freshCid s := by simpa [Course.new] using hx2
    exact freshCid_not_mem s (hx3 ▸ hx)
  · intro c hc
    rcases List.mem_append.mp hc with h | h
    · exact hinv.wf c h
    · have hcn : c = Course.new (freshCid s) ty n b fl rm := by simpa using h
      subst hcn
      exact ⟨hn1, hn5, by simpa [Course.new] using hfl, by simpa [Course.new] using hrm⟩
  · intro c hc
    rcases List.mem_append.mp hc with h | h
    · exact hinv.roomsWf c h
    · have hcn : c = Course.new (freshCid s) ty n b fl rm := by simpa using h
      subst hcn
      simp [Course.new]
  · intro c hc
    rcases List.mem_append.mp hc with h | h
    · exact hinv.schedIff c h
    · have hcn : c = Course.new (freshCid s) ty n b fl rm := by simpa using h
      subst hcn
      simp only [Course.new, List.length_nil]
      constructor
      · intro h2; cases h2
      · intro h2; omega
  · intro c hc
    rcases List.mem_append.mp hc with h | h
    · exact hinv.unschedEmpty c h
    · have hcn : c = Course.new (freshCid s) ty n b fl rm := by simpa using h
      subst hcn
      simp [Course.new]
  · intro c hc
    rcases List.mem_append.mp hc with h | h
    · exact hinv.slotOk c h
    · have hcn : c = Course.new (freshCid s) ty n b fl rm := by simpa using h
      subst hcn
      simp [Course.new]
  · intro c hc
    rcases List.mem_append.mp hc with h | h
    · exact hinv.gridCover c h
    · have hcn : c = Course.new (freshCid s) ty n b fl rm := by simpa using h
      subst hcn
      simp [Course.new]
  · intro d t cid h
    obtain ⟨c, hc, hcid, hspan⟩ := hinv.gridSound d t cid h
    exact ⟨c, List.mem_append_left _ hc, hcid, hspan⟩
  · exact hinv.roomsEq

theorem clearSchedule_inv (s : Schedule) : Inv (clearSchedule s) :=
  inv_initState

/-- `unscheduleCourse` preserves the invariant for any cid. -/
theorem unscheduleCourse_inv {s : Schedule} (hinv : Inv s) (cid : Nat) :
    Inv (unscheduleCourse s cid) := by
  have hcourses : (unscheduleCourse s cid).courses = s.courses.map fun c =>
      if c.cid = cid then
        { c with scheduled := false, scheduledSlots := [], scheduledRooms := [] }
      else c := rfl
  have hgrid : ∀ d t, (unscheduleCourse s cid).grid d t =
      if d < 5 ∧ t < 13 ∧ s.grid d t = some cid then none else s.grid d t :=
    fun d t => rfl
  constructor
  · rw [hcourses, map_reset_cids]
    · exact hinv.nodup
    · intro c; rfl
  · intro c hc
    rw [hcourses] at hc
    obtain ⟨c0, hc0, rfl⟩ := List.mem_map.mp hc
    by_cases h : c0.cid = cid <;> simp only [h, if_true, if_false] <;>
      exact hinv.wf c0 hc0
  · intro c hc
    rw [hcourses] at hc
    obtain ⟨c0, hc0, rfl⟩ := List.mem_map.mp hc
    split
    · simp
    · exact hinv.roomsWf c0 hc0
  · intro c hc
    rw [hcourses] at hc
    obtain ⟨c0, hc0, rfl⟩ := List.mem_map.mp hc
    split
    · have h1 := (hinv.wf c0 hc0).1
      simp only [List.length_nil]
      constructor
      · intro h2; cases h2
      · intro h2; omega
    · exact hinv.schedIff c0 hc0
  · intro c hc
    rw [hcourses] at hc
    obtain ⟨c0, hc0, rfl⟩ := List.mem_map.mp hc
    split
    · intro _; exact ⟨rfl, rfl⟩
    · exact hinv.unschedEmpty c0 hc0
  · intro c hc
    rw [hcourses] at hc
    obtain ⟨c0, hc0, rfl⟩ := List.mem_map.mp hc
    split
    · simp
    · exact hinv.slotOk c0 hc0
  · intro c hc
    rw [hcourses] at hc
    obtain ⟨c0, hc0, rfl⟩ := List.mem_map.mp hc
    split
    · simp
    · rename_i hne
      intro p hp i hi
      rw [hgrid]
      have hold := hinv.gridCover c0 hc0 p hp i hi
      rw [if_neg ?_]
      · exact hold
      · rintro ⟨-, -, hcell⟩
        rw [hold] at hcell
        exact hne (by simpa using hcell)
  · intro d t cid2 h
    rw [hgrid] at h
    by_cases hcond : d < 5 ∧ t < 13 ∧ s.grid d t = some cid
    · rw [if_pos hcond] at h
      cases h
    · rw [if_neg hcond] at h
      obtain ⟨c0, hc0, hcid0, hspan⟩ := hinv.gridSound d t cid2 h
      have hne : c0.cid ≠ cid := by
        intro heq
        apply hcond
        obtain ⟨p, hp, hpd, hpt, hptd⟩ := hspan
        obtain ⟨hd5, hok⟩ := hinv.slotOk c0 hc0 p hp
        have hok2 : (∀ i < c0.duration, p.2 + i ≠ 6) ∧ p.2 + c0.duration ≤ 13 := hok
        refine ⟨hpd ▸ hd5, by omega, ?_⟩
        rw [h, ← hcid0, heq]
      refine ⟨c0, ?_, hcid0, hspan⟩
      rw [hcourses]
      have : (if c0.cid = cid then
          { c0 with scheduled := false, scheduledSlots := [], scheduledRooms := [] }
          else c0) = c0 := if_neg hne
      exact this ▸ List.mem_map_of_mem _ hc0
  · exact hinv.roomsEq

/-- The head of a list is a member. -/
theorem head?_mem {α : Type} {l : List α} {a : α} (h : l.head? = some a) : a ∈ l := by
  cases l with
  | nil => cases h
  | cons x tl =>
    have hxa : x = a := by simpa using h
    subst hxa
    exact List.mem_cons_self ..

/-- A successful floor scan stays on the floor with a room in 1..13. -/
theorem scanFloor_some {s : Schedule} {f : Nat} {fr : Nat × Nat}
    (h : scanFloor s f = some fr) :
    fr.1 = f ∧ 1 ≤ fr.2 ∧ fr.2 ≤ 13 ∧ s.rooms f fr.2 = true := by
  unfold scanFloor at h
  cases hf : (List.range' 1 13).find? fun room => s.rooms f room with
  | none => rw [hf] at h; cases h
  | some r =>
    rw [hf] at h
    obtain ⟨h1, h2, h3, -⟩ := find?_range'_spec 13 1 r hf
    have hfr : fr = (f, r) := by
      simpa using h.symm
    subst hfr
    exact ⟨rfl, h2, by omega, by simpa using h1⟩

/-- With the freshly initialized room inventory, a floor scan on a valid
floor finds room 1. -/
theorem scanFloor_init {s : Schedule} (hre : s.rooms = initializeRooms) {f : Nat}
    (h1 : 1 ≤ f) (h7 : f ≤ 7) : scanFloor s f = some (f, 1) := by
  have hp : s.rooms f 1 = true := by
    rw [hre]
    unfold initializeRooms
    rw [if_pos (by omega)]
  unfold scanFloor
  rw [show (13 : Nat) = 12 + 1 from rfl, List.range'_succ, List.find?_cons_of_pos _ hp]
  rfl

/-- A successful reuse branch returns one of the recorded rooms. -/
theorem reuseChoice_mem {s : Schedule} {co : Course} {fr : Nat × Nat}
    (h : reuseChoice s (some co) = some fr) :
    ∃ e ∈ co.scheduledRooms, fr = (e.2.1, e.2.2) := by
  unfold reuseChoice at h
  replace h : (if co.consistentRoom = true then
      match co.scheduledRooms.head? with
      | some e => if s.rooms e.2.1 e.2.2 = true then some (e.2.1, e.2.2) else none
      | none => none
    else none) = some fr := h
  by_cases hcr : co.consistentRoom = true
  · rw [if_pos hcr] at h
    cases hh : co.scheduledRooms.head? with
    | none => rw [hh] at h; cases h
    | some e =>
      rw [hh] at h
      replace h : (if s.rooms e.2.1 e.2.2 = true then
          some (e.2.1, e.2.2) else none) = some fr := h
      by_cases hfree : s.rooms e.2.1 e.2.2 = true
      · rw [if_pos hfree] at h
        exact ⟨e, head?_mem hh, (Option.some.inj h).symm⟩
      · rw [if_neg hfree] at h
        cases h
  · rw [if_neg hcr] at h
    cases h

/-- When the reuse branch declines, `findAvailableRoom` scans the
preferred floor only, or all floors. -/
theorem findAvailableRoom_eq_scan {s : Schedule} {fl : Option Nat}
    {co : Option Course} {dy : Option Nat} (h : reuseChoice s co = none) :
    findAvailableRoom s fl co dy =
      match fl with
      | some f => scanFloor s f
      | none => (List.range' 1 7).findSome? fun f => scanFloor s f := by
  unfold findAvailableRoom
  rw [h]

/-- With the freshly initialized room inventory, `findAvailableRoom` always
yields a structurally valid room. -/
theorem findAvailableRoom_isSome {s : Schedule} (hre : s.rooms = initializeRooms)
    {fl : Option Nat} (hfl : ∀ f, fl = some f → 1 ≤ f ∧ f ≤ 7)
    {co : Course}
    (hsr : ∀ e ∈ co.scheduledRooms,
      e.1 < 5 ∧ 1 ≤ e.2.1 ∧ e.2.1 ≤ 7 ∧ 1 ≤ e.2.2 ∧ e.2.2 ≤ 13)
    (dy : Option Nat) :
    ∃ fr, findAvailableRoom s fl (some co) dy = some fr ∧
      1 ≤ fr.1 ∧ fr.1 ≤ 7 ∧ 1 ≤ fr.2 ∧ fr.2 ≤ 13 := by
  cases hr : reuseChoice s (some co) with
  | some fr =>
    obtain ⟨e, he, rfl⟩ := reuseChoice_mem hr
    obtain ⟨-, he1, he7, he2, he13⟩ := hsr e he
    refine ⟨(e.2.1, e.2.2), ?_, he1, he7, he2, he13⟩
    unfold findAvailableRoom
    rw [hr]
  | none =>
    rw [findAvailableRoom_eq_scan hr]
    cases hflc : fl with
    | some f =>
      obtain ⟨hf1, hf7⟩ := hfl f hflc
      show ∃ fr, scanFloor s f = some fr ∧ 1 ≤ fr.1 ∧ fr.1 ≤ 7 ∧ 1 ≤ fr.2 ∧ fr.2 ≤ 13
      rw [scanFloor_init hre hf1 hf7]
      exact ⟨(f, 1), rfl, hf1, hf7, by omega, by omega⟩
    | none =>
      show ∃ fr, ((List.range' 1 7).findSome? fun f => scanFloor s f) = some fr ∧
        1 ≤ fr.1 ∧ fr.1 ≤ 7 ∧ 1 ≤ fr.2 ∧ fr.2 ≤ 13
      rw [show (7 : Nat) = 6 + 1 from rfl, List.range'_succ, List.findSome?_cons,
        scanFloor_init hre (by omega) (by omega)]
      exact ⟨(1, 1), rfl, by omega, by omega, by omega, by omega⟩

/-- Step (i) taken: the consistent reuse choice decides the session room. -/
theorem sessionRoom_eq_consistent {s : Schedule} {co : Course} {day t : Nat}
    {u : Bool} {fr : Nat × Nat} (h : consistentChoice s co day t u = some fr) :
    sessionRoom s co day t u = some fr := by
  unfold sessionRoom
  rw [h]

/-- Step (ii) taken: preferred floor/room decide the session room. -/
theorem sessionRoom_eq_preferred {s : Schedule} {co : Course} {day t : Nat}
    {u : Bool} {fr : Nat × Nat} (h1 : consistentChoice s co day t u = none)
    (h2 : preferredChoice s co day t = some fr) :
    sessionRoom s co day t u = some fr := by
  unfold sessionRoom
  rw [h1, h2]

/-- Step (iii) taken: the room search decides the session room. -/
theorem sessionRoom_eq_find {s : Schedule} {co : Course} {day t : Nat}
    {u : Bool} (h1 : consistentChoice s co day t u = none)
    (h2 : preferredChoice s co day t = none) :
    sessionRoom s co day t u = findAvailableRoom s co.floor (some co) (some day) := by
  unfold sessionRoom
  rw [h1, h2]

/-- A successful consistent reuse returns a recorded room. -/
theorem consistentChoice_mem {s : Schedule} {co : Course} {day t : Nat}
    {u : Bool} {fr : Nat × Nat} (h : consistentChoice s co day t u = some fr) :
    ∃ e ∈ co.scheduledRooms, fr = (e.2.1, e.2.2) := by
  unfold consistentChoice at h
  by_cases hu : (u = true ∧ co.consistentRoom = true)
  · rw [if_pos hu] at h
    cases hh : co.scheduledRooms.head? with
    | none => rw [hh] at h; cases h
    | some e =>
      rw [hh] at h
      replace h : (if isRoomAvailable s e.2.1 e.2.2 day t co.duration = true then
          some (e.2.1, e.2.2) else none) = some fr := h
      by_cases hav : isRoomAvailable s e.2.1 e.2.2 day t co.duration = true
      · rw [if_pos hav] at h
        exact ⟨e, head?_mem hh, (Option.some.inj h).symm⟩
      · rw [if_neg hav] at h
        cases h
  · rw [if_neg hu] at h
    cases h

/-- A successful preferred choice returns the course's floor and room. -/
theorem preferredChoice_eq {s : Schedule} {co : Course} {day t : Nat}
    {fr : Nat × Nat} (h : preferredChoice s co day t = some fr) :
    co.floor = some fr.1 ∧ co.room = some fr.2 := by
  unfold preferredChoice at h
  cases hf : co.floor with
  | none => rw [hf] at h; cases h
  | some f =>
    cases hr : co.room with
    | none => rw [hf, hr] at h; cases h
    | some r =>
      rw [hf, hr] at h
      replace h : (if isRoomAvailable s f r day t co.duration = true then
          some (f, r) else none) = some fr := h
      by_cases hav : isRoomAvailable s f r day t co.duration = true
      · rw [if_pos hav] at h
        obtain rfl : (f, r) = fr := Option.some.inj h
        exact ⟨rfl, rfl⟩
      · rw [if_neg hav] at h
        cases h

/-- With the initialized room inventory and a structurally valid course,
the room selection always succeeds with a valid room. -/
theorem sessionRoom_isSome {s : Schedule} (hre : s.rooms = initializeRooms)
    {co : Course} (hfl : ∀ f, co.floor = some f → 1 ≤ f ∧ f ≤ 7)
    (hrm : ∀ r, co.room = some r → 1 ≤ r ∧ r ≤ 13)
    (hsr : ∀ e ∈ co.scheduledRooms,
      e.1 < 5 ∧ 1 ≤ e.2.1 ∧ e.2.1 ≤ 7 ∧ 1 ≤ e.2.2 ∧ e.2.2 ≤ 13)
    (day t : Nat) (u : Bool) :
    ∃ fr, sessionRoom s co day t u = some fr ∧
      1 ≤ fr.1 ∧ fr.1 ≤ 7 ∧ 1 ≤ fr.2 ∧ fr.2 ≤ 13 := by
  cases hc : consistentChoice s co day t u with
  | some fr =>
    obtain ⟨e, he, rfl⟩ := consistentChoice_mem hc
    obtain ⟨-, he1, he7, he2, he13⟩ := hsr e he
    exact ⟨(e.2.1, e.2.2), sessionRoom_eq_consistent hc, he1, he7, he2, he13⟩
  | none =>
    cases hp : preferredChoice s co day t with
    | some fr =>
      obtain ⟨hf, hr⟩ := preferredChoice_eq hp
      exact ⟨fr, sessionRoom_eq_preferred hc hp, (hfl _ hf).1, (hfl _ hf).2,
        (hrm _ hr).1, (hrm _ hr).2⟩
    | none =>
      obtain ⟨fr, hfr, hranges⟩ := findAvailableRoom_isSome hre hfl hsr (some day)
      exact ⟨fr, (sessionRoom_eq_find hc hp).trans hfr, hranges⟩

/-- Reduction of `scheduleClassSession` once the course is found. -/
theorem scheduleClassSession_eq_found {s : Schedule} {cid : Nat} {slot : Nat × Nat}
    {u : Bool} {course : Course}
    (hfind : (s.courses.find? fun c => c.cid = cid) = some course) :
    scheduleClassSession s cid slot u =
      match sessionRoom s course slot.1 slot.2 u with
      | none => none
      | some fr =>
        some { (updateCourse s cid fun _ => commitCourse course slot.1 slot.2 fr) with
               grid := writeSpan s.grid slot.1 slot.2 cid course.duration } := by
  unfold scheduleClassSession
  rw [hfind]

/-- A successful session commit, in components. -/
theorem scheduleClassSession_some {s : Schedule} {cid : Nat} {slot : Nat × Nat}
    {u : Bool} {course : Course}
    (hfind : (s.courses.find? fun c => c.cid = cid) = some course)
    {fr : Nat × Nat} (hroom : sessionRoom s course slot.1 slot.2 u = some fr) :
    scheduleClassSession s cid slot u =
      some { courses := s.courses.map fun c =>
               if c.cid = cid then commitCourse course slot.1 slot.2 fr else c,
             grid := writeSpan s.grid slot.1 slot.2 cid course.duration,
             rooms := s.rooms } := by
  rw [scheduleClassSession_eq_found hfind, hroom]
  rfl

theorem sessionsLoop_cons_some {sk : Schedule} {cid : Nat} {first : Bool}
    {sl : Nat × Nat} {rest : List (Nat × Nat)} {s2 : Schedule}
    (h : scheduleClassSession sk cid sl (!first) = some s2) :
    sessionsLoop sk cid first (sl :: rest) = sessionsLoop s2 cid false rest := by
  rw [sessionsLoop, h]

/-- The shape of the course object being scheduled, after `done` sessions
of the transaction have been committed. -/
def CourseShape (c0 ck : Course) (cid : Nat) (done : List (Nat × Nat)) : Prop :=
  ck.cid = cid ∧ ck.ctype = c0.ctype ∧ ck.classesPerWeek = c0.classesPerWeek ∧
  ck.consistentRoom = c0.consistentRoom ∧ ck.scheduled = false ∧
  ck.scheduledSlots = done ∧
  (∀ e ∈ ck.scheduledRooms,
    e.1 < 5 ∧ 1 ≤ e.2.1 ∧ e.2.1 ≤ 7 ∧ 1 ≤ e.2.2 ∧ e.2.2 ≤ 13) ∧
  (∀ f, ck.floor = some f → 1 ≤ f ∧ f ≤ 7) ∧
  (∀ r, ck.room = some r → 1 ≤ r ∧ r ≤ 13)

/-- With the initialized room inventory, a course transaction commits every
listed session: the loop always succeeds, only this course's object is
touched, and the grid changes exactly on the committed spans. -/
theorem sessionsLoop_ok {s0 : Schedule} {cid : Nat} {c0 : Course}
    (hre : s0.rooms = initializeRooms)
    (hnd : (s0.courses.map fun c => c.cid).Nodup)
    (hc0 : c0 ∈ s0.courses) (hcid : c0.cid = cid) :
    ∀ (slots done : List (Nat × Nat)) (sk : Schedule) (ck : Course) (first : Bool),
      sk.courses = (s0.courses.map fun c => if c.cid = cid then ck else c) →
      (∀ d t, (SpanMem done c0.duration d t → sk.grid d t = some cid) ∧
              (¬ SpanMem done c0.duration d t → sk.grid d t = s0.grid d t)) →
      sk.rooms = s0.rooms →
      CourseShape c0 ck cid done →
      (∀ p ∈ slots, p.1 < 5 ∧ isTimeSlotAvailable s0 p.1 p.2 c0.duration = true) →
      ∃ sf cf, sessionsLoop sk cid first slots = (sf, true) ∧
        sf.courses = (s0.courses.map fun c => if c.cid = cid then cf else c) ∧
        (∀ d t, (SpanMem (done ++ slots) c0.duration d t → sf.grid d t = some cid) ∧
                (¬ SpanMem (done ++ slots) c0.duration d t → sf.grid d t = s0.grid d t)) ∧
        sf.rooms = s0.rooms ∧
        CourseShape c0 cf cid (done ++ slots) := by
  intro slots
  induction slots with
  | nil =>
    intro done sk ck first hk hgrid hrooms hshape _
    exact ⟨sk, ck, rfl, hk, by simpa using hgrid, hrooms, by simpa using hshape⟩
  | cons sl rest ih =>
    intro done sk ck first hk hgrid hrooms hshape hslots
    obtain ⟨hsc, hsty, hscpw, hscr, hssch, hsslots, hsrooms, hsfl, hsrm⟩ := hshape
    have hdur : ck.duration = c0.duration := duration_congr hsty
    have hndk : (sk.courses.map fun c => c.cid).Nodup := by
      rw [hk, map_update_cids _ _ _ hsc]
      exact hnd
    have hckmem : ck ∈ sk.courses := by
      rw [hk]
      have hm := List.mem_map_of_mem (fun c => if c.cid = cid then ck else c) hc0
      simpa [hcid] using hm
    have hfind : (sk.courses.find? fun c => c.cid = cid) = some ck := by
      have h := find?_cid hndk hckmem
      simp only [hsc] at h
      exact h
    have hsrooms0 : sk.rooms = initializeRooms := hrooms.trans hre
    obtain ⟨fr, hfr, hfr1, hfr7, hfr2, hfr13⟩ :=
      sessionRoom_isSome hsrooms0 hsfl hsrm hsrooms sl.1 sl.2 (!first)
    rw [sessionsLoop_cons_some (scheduleClassSession_some hfind hfr)]
    have hsl5 : sl.1 < 5 := (hslots sl (List.mem_cons_self ..)).1
    have hslav : isTimeSlotAvailable s0 sl.1 sl.2 c0.duration = true :=
      (hslots sl (List.mem_cons_self ..)).2
    obtain ⟨sf, cf, hloop, hfk, hfgrid, hfrooms, hfshape⟩ :=
      ih (done ++ [sl])
        { courses := sk.courses.map fun c =>
            if c.cid = cid then commitCourse ck sl.1 sl.2 fr else c,
          grid := writeSpan sk.grid sl.1 sl.2 cid ck.duration,
          rooms := sk.rooms }
        (commitCourse ck sl.1 sl.2 fr) false
        (by
          show (sk.courses.map fun c =>
            if c.cid = cid then commitCourse ck sl.1 sl.2 fr else c) = _
          rw [hk, map_update_update _ _ _ _ hsc])
        (by
          intro d t
          have hw := writeSpan_eq sk.grid sl.1 sl.2 cid ck.duration d t
          constructor
          · intro hmem
            rcases spanMem_append.mp hmem with hmem | hmem
            · show writeSpan sk.grid sl.1 sl.2 cid ck.duration d t = some cid
              rw [hw]
              split
              · rfl
              · exact (hgrid d t).1 hmem
            · obtain ⟨hd, ht1, ht2⟩ := spanMem_singleton.mp hmem
              show writeSpan sk.grid sl.1 sl.2 cid ck.duration d t = some cid
              rw [hw, if_pos ⟨hd.symm, ht1, by rw [hdur]; exact ht2⟩]
          · intro hmem
            rw [spanMem_append] at hmem
            push_neg at hmem
            show writeSpan sk.grid sl.1 sl.2 cid ck.duration d t = s0.grid d t
            rw [hw, if_neg ?_]
            · exact (hgrid d t).2 hmem.1
            · rintro ⟨hd, ht1, ht2⟩
              exact hmem.2 (spanMem_singleton.mpr
                ⟨hd.symm, ht1, by rw [← hdur]; exact ht2⟩))
        hrooms
        (by
          refine ⟨hsc, hsty, hscpw, hscr, hssch, ?_, ?_, ?_, ?_⟩
          · show ck.scheduledSlots ++ [(sl.1, sl.2)] = done ++ [sl]
            rw [hsslots]
          · show ∀ e ∈ upsertRoom sl.1 fr.1 fr.2 ck.scheduledRooms, _
            exact upsertRoom_wf _ hsrooms ⟨hsl5, hfr1, hfr7, hfr2, hfr13⟩
          · show ∀ f, (if ck.consistentRoom = true ∧ ck.room = none
                then some fr.1 else ck.floor) = some f → 1 ≤ f ∧ f ≤ 7
            split
            · intro f hf
              cases hf
              exact ⟨hfr1, hfr7⟩
            · exact hsfl
          · show ∀ r, (if ck.consistentRoom = true ∧ ck.room = none
                then some fr.2 else ck.room) = some r → 1 ≤ r ∧ r ≤ 13
            split
            · intro r hr
              cases hr
              exact ⟨hfr2, hfr13⟩
            · exact hsrm)
        (fun p hp => hslots p (List.mem_cons_of_mem _ hp))
    refine ⟨sf, cf, hloop, hfk, ?_, hfrooms, ?_⟩
    · intro d t
      have hassoc : (done ++ [sl]) ++ rest = done ++ sl :: rest := by simp
      rw [hassoc] at hfgrid
      exact hfgrid d t
    · have hassoc : (done ++ [sl]) ++ rest = done ++ sl :: rest := by simp
      rw [hassoc] at hfshape
      exact hfshape

/-- Resetting already-empty result fields does nothing. -/
theorem reset_self {c : Course} (h1 : c.scheduledSlots = [])
    (h2 : c.scheduledRooms = []) :
    { c with scheduledSlots := [], scheduledRooms := [] } = c := by
  cases c with
  | mk a1 a2 a3 a4 a5 a6 a7 a8 a9 =>
    dsimp only at h1 h2
    subst h1
    subst h2
    rfl

/-- Reduction of `scheduleCourse` once the course is found. -/
theorem scheduleCourse_eq_found {s : Schedule} {cid : Nat} {course : Course}
    (hfind : (s.courses.find? fun c => c.cid = cid) = some course) :
    scheduleCourse s cid =
      if (findAvailableTimeSlots s course course.classesPerWeek).length <
          course.classesPerWeek then (s, false)
      else
        match sessionsLoop (updateCourse s cid fun c =>
            { c with scheduledSlots := [], scheduledRooms := [] }) cid true
            ((findAvailableTimeSlots s course course.classesPerWeek).take
              course.classesPerWeek) with
        | (s2, true) => (updateCourse s2 cid fun c => { c with scheduled := true }, true)
        | (s2, false) => (unscheduleCourse s2 cid, false) := by
  unfold scheduleCourse
  rw [hfind]

/-- Scheduling an unscheduled course of an invariant-satisfying state
preserves the invariant, leaves the room inventory unchanged and touches
only that course's object. -/
theorem scheduleCourse_ok {s0 : Schedule} (hinv : Inv s0) {cid : Nat} {c0 : Course}
    (hc0 : c0 ∈ s0.courses) (hcid : c0.cid = cid) (hun : c0.scheduled = false) :
    Inv (scheduleCourse s0 cid).1 ∧
    (scheduleCourse s0 cid).1.rooms = s0.rooms ∧
    ∃ c2, c2.cid = cid ∧
      (scheduleCourse s0 cid).1.courses =
        s0.courses.map fun c => if c.cid = cid then c2 else c := by
  have hfind : (s0.courses.find? fun c => c.cid = cid) = some c0 := by
    have h := find?_cid hinv.nodup hc0
    simp only [hcid] at h
    exact h
  have hempty := hinv.unschedEmpty c0 hc0 hun
  by_cases hlen : (findAvailableTimeSlots s0 c0 c0.classesPerWeek).length <
      c0.classesPerWeek
  · have hres : scheduleCourse s0 cid = (s0, false) := by
      rw [scheduleCourse_eq_found hfind, if_pos hlen]
    rw [hres]
    refine ⟨hinv, rfl, c0, hcid, ?_⟩
    rw [← hcid]
    exact (map_update_self hinv.nodup hc0).symm
  · -- the per-session facts about the chosen slots
    have htakesub : ∀ p ∈ (findAvailableTimeSlots s0 c0 c0.classesPerWeek).take
        c0.classesPerWeek, p ∈ findAvailableTimeSlots s0 c0 c0.classesPerWeek :=
      fun p hp => List.take_subset _ _ hp
    have hav : ∀ p ∈ (findAvailableTimeSlots s0 c0 c0.classesPerWeek).take
        c0.classesPerWeek, p.1 < 5 ∧ isTimeSlotAvailable s0 p.1 p.2 c0.duration = true :=
      fun p hp => findSlots_avail p (htakesub p hp)
    have hk1 : (updateCourse s0 cid fun c =>
        { c with scheduledSlots := [], scheduledRooms := [] }).courses =
        s0.courses.map fun c => if c.cid = cid then c0 else c := by
      show s0.courses.map _ = _
      apply List.map_congr_left
      intro c hcm
      by_cases hcc : c.cid = cid
      · rw [if_pos hcc, if_pos hcc]
        have hc0e : c = c0 := nodup_cid_inj hinv.nodup hcm hc0 (hcc.trans hcid.symm)
        subst hc0e
        exact reset_self hempty.1 hempty.2
      · rw [if_neg hcc, if_neg hcc]
    have hshape1 : CourseShape c0 c0 cid [] := by
      refine ⟨hcid, rfl, rfl, rfl, hun, hempty.1, ?_, (hinv.wf c0 hc0).2.2.1,
        (hinv.wf c0 hc0).2.2.2⟩
      intro e he
      rw [hempty.2] at he
      cases he
    obtain ⟨sf, cf, hloop, hfk, hfgrid, hfrooms, hfshape⟩ :=
      sessionsLoop_ok hinv.roomsEq hinv.nodup hc0 hcid
        ((findAvailableTimeSlots s0 c0 c0.classesPerWeek).take c0.classesPerWeek) []
        (updateCourse s0 cid fun c =>
          { c with scheduledSlots := [], scheduledRooms := [] })
        c0 true hk1
        (by
          intro d t
          exact ⟨fun hsm => absurd hsm spanMem_nil, fun _ => rfl⟩)
        rfl hshape1 hav
    obtain ⟨hcfc, hcfty, hcfcpw, hcfcr, hcfsch, hcfslots, hcfrooms, hcffl, hcfrm⟩ :=
      hfshape
    simp only [List.nil_append] at hcfslots hfgrid
    have hres : scheduleCourse s0 cid =
        (updateCourse sf cid fun c => { c with scheduled := true }, true) := by
      rw [scheduleCourse_eq_found hfind, if_neg hlen, hloop]
    rw [hres]
    have hcomp : (updateCourse sf cid fun c => { c with scheduled := true }).courses =
        s0.courses.map fun c =>
          if c.cid = cid then { cf with scheduled := true } else c := by
      show sf.courses.map _ = _
      rw [hfk, List.map_map]
      apply List.map_congr_left
      intro c _
      by_cases hcc : c.cid = cid
      · simp only [Function.comp, hcc, if_true, hcfc]
      · simp only [Function.comp, hcc, if_false]
    have hlenTake : ((findAvailableTimeSlots s0 c0 c0.classesPerWeek).take
        c0.classesPerWeek).length = c0.classesPerWeek := by
      rw [List.length_take]
      omega
    have hdur0 : 0 < c0.duration := duration_pos c0
    have hcfdur : cf.duration = c0.duration := duration_congr hcfty
    have hspan_none : ∀ d t, SpanMem ((findAvailableTimeSlots s0 c0
        c0.classesPerWeek).take c0.classesPerWeek) c0.duration d t →
        s0.grid d t = none := by
      rintro d t ⟨p, hp, hpd, hpt1, hpt2⟩
      have hpav := (hav p hp).2
      have := (avail_spanFree s0 p.1 p.2 c0.duration hpav (t - p.2) (by omega)).2
      rw [hpd] at this
      rw [show p.2 + (t - p.2) = t from by omega] at this
      exact this
    have hmemfin : ∀ c ∈ s0.courses, ¬ c.cid = cid →
        c ∈ (updateCourse sf cid fun c => { c with scheduled := true }).courses := by
      intro c hcm hcc
      rw [hcomp]
      have hm := List.mem_map_of_mem (fun c =>
        if c.cid = cid then { cf with scheduled := true } else c) hcm
      simpa [hcc] using hm
    refine ⟨?_, hfrooms, { cf with scheduled := true }, hcfc, hcomp⟩
    constructor
    · -- nodup
      rw [hcomp, map_update_cids s0.courses cid { cf with scheduled := true } hcfc]
      exact hinv.nodup
    · intro c hc
      rw [hcomp] at hc
      obtain ⟨c1, hc1, rfl⟩ := List.mem_map.mp hc
      by_cases hcc : c1.cid = cid
      · rw [if_pos hcc]
        have hc1e : c1 = c0 := nodup_cid_inj hinv.nodup hc1 hc0 (hcc.trans hcid.symm)
        subst hc1e
        refine ⟨?_, ?_, hcffl, hcfrm⟩
        · show 1 ≤ cf.classesPerWeek
          rw [hcfcpw]
          exact (hinv.wf c1 hc1).1
        · show cf.classesPerWeek ≤ 5
          rw [hcfcpw]
          exact (hinv.wf c1 hc1).2.1
      · rw [if_neg hcc]
        exact hinv.wf c1 hc1
    · intro c hc
      rw [hcomp] at hc
      obtain ⟨c1, hc1, rfl⟩ := List.mem_map.mp hc
      by_cases hcc : c1.cid = cid
      · rw [if_pos hcc]
        exact hcfrooms
      · rw [if_neg hcc]
        exact hinv.roomsWf c1 hc1
    · intro c hc
      rw [hcomp] at hc
      obtain ⟨c1, hc1, rfl⟩ := List.mem_map.mp hc
      by_cases hcc : c1.cid = cid
      · rw [if_pos hcc]
        have hc1e : c1 = c0 := nodup_cid_inj hinv.nodup hc1 hc0 (hcc.trans hcid.symm)
        subst hc1e
        constructor
        · intro _
          show cf.scheduledSlots.length = cf.classesPerWeek
          rw [hcfslots, hcfcpw, hlenTake]
        · intro _
          rfl
      · rw [if_neg hcc]
        exact hinv.schedIff c1 hc1
    · intro c hc
      rw [hcomp] at hc
      obtain ⟨c1, hc1, rfl⟩ := List.mem_map.mp hc
      by_cases hcc : c1.cid = cid
      · rw [if_pos hcc]
        intro h
        cases h
      · rw [if_neg hcc]
        exact hinv.unschedEmpty c1 hc1
    · intro c hc
      rw [hcomp] at hc
      obtain ⟨c1, hc1, rfl⟩ := List.mem_map.mp hc
      by_cases hcc : c1.cid = cid
      · rw [if_pos hcc]
        intro p hp
        show p.1 < 5 ∧ SlotOk p.2 cf.duration
        rw [hcfdur]
        have hpm : p ∈ cf.scheduledSlots := hp
        rw [hcfslots] at hpm
        have h5 := (hav p hpm).1
        have hok := avail_slotOk s0 p.1 p.2 c0.duration hdur0 (hav p hpm).2
        exact ⟨h5, hok⟩
      · rw [if_neg hcc]
        exact hinv.slotOk c1 hc1
    · intro c hc
      rw [hcomp] at hc
      obtain ⟨c1, hc1, rfl⟩ := List.mem_map.mp hc
      by_cases hcc : c1.cid = cid
      · rw [if_pos hcc]
        intro p hp i hi
        have hpm : p ∈ cf.scheduledSlots := hp
        rw [hcfslots] at hpm
        have hi2 : i < c0.duration := by
          have hde : Course.duration { cf with scheduled := true } = cf.duration := rfl
          rw [hde, hcfdur] at hi
          exact hi
        have hsm : SpanMem ((findAvailableTimeSlots s0 c0 c0.classesPerWeek).take
            c0.classesPerWeek) c0.duration p.1 (p.2 + i) :=
          ⟨p, hpm, rfl, by omega, by omega⟩
        have hcell := (hfgrid p.1 (p.2 + i)).1 hsm
        show sf.grid p.1 (p.2 + i) = some ({ cf with scheduled := true } : Course).cid
        rw [hcell]
        have hqc : ({ cf with scheduled := true } : Course).cid = cid := hcfc
        rw [hqc]
      · rw [if_neg hcc]
        intro p hp i hi
        have hold := hinv.gridCover c1 hc1 p hp i hi
        have hnsm : ¬ SpanMem ((findAvailableTimeSlots s0 c0 c0.classesPerWeek).take
            c0.classesPerWeek) c0.duration p.1 (p.2 + i) := by
          intro hsm
          rw [hspan_none _ _ hsm] at hold
          cases hold
        have := (hfgrid p.1 (p.2 + i)).2 hnsm
        show sf.grid p.1 (p.2 + i) = some c1.cid
        rw [this]
        exact hold
    · intro d t cid2 h
      replace h : sf.grid d t = some cid2 := h
      by_cases hsm : SpanMem ((findAvailableTimeSlots s0 c0 c0.classesPerWeek).take
          c0.classesPerWeek) c0.duration d t
      · have hcell := (hfgrid d t).1 hsm
        rw [h] at hcell
        have hcid2 : cid2 = cid := Option.some.inj hcell
        refine ⟨{ cf with scheduled := true }, ?_, ?_, ?_⟩
        · rw [hcomp]
          have hm := List.mem_map_of_mem (fun c =>
            if c.cid = cid then { cf with scheduled := true } else c) hc0
          simpa [hcid] using hm
        · show ({ cf with scheduled := true } : Course).cid = cid2
          rw [hcid2]
          exact hcfc
        · show SpanMem cf.scheduledSlots (Course.duration { cf with scheduled := true }) d t
          have hde : Course.duration { cf with scheduled := true } = c0.duration := by
            rw [show Course.duration { cf with scheduled := true } = cf.duration from rfl,
              hcfdur]
          rw [hde, hcfslots]
          exact hsm
      · have hcell := (hfgrid d t).2 hsm
        rw [hcell] at h
        obtain ⟨c1, hc1, hcid1, hspan1⟩ := hinv.gridSound d t cid2 h
        by_cases hcc : c1.cid = cid
        · have hc1e : c1 = c0 := nodup_cid_inj hinv.nodup hc1 hc0 (hcc.trans hcid.symm)
          subst hc1e
          rw [hempty.1] at hspan1
          exact absurd hspan1 spanMem_nil
        · exact ⟨c1, hmemfin c1 hc1 hcc, hcid1, hspan1⟩
    · show sf.rooms = initializeRooms
      rw [hfrooms]
      exact hinv.roomsEq


/-- Rank used by the priority comparator: labs first. -/
def labRank (c : Course) : Nat :=
  if c.ctype = CType.lab then 0 else 1

/-- Rank used by the priority comparator: consistent-room courses first. -/
def consRank (c : Course) : Nat :=
  if c.consistentRoom then 0 else 1

/-- Modelled from the spec: the composite priority key order, descending
preference - labs before theory, more classes per week first, then
consistent-room courses first. -/
def specKeyLe (a b : Course) : Prop :=
  labRank a < labRank b ∨
    (labRank a = labRank b ∧
      (b.classesPerWeek < a.classesPerWeek ∨
        (a.classesPerWeek = b.classesPerWeek ∧ consRank a ≤ consRank b)))

/-- The composite key of a course, as data. -/
def keyOf (c : Course) : Nat × Nat × Nat :=
  (labRank c, c.classesPerWeek, consRank c)

theorem compareCourses_eq_zero (a b : Course) :
    compareCourses a b = 0 ↔ keyOf a = keyOf b := by
  unfold compareCourses keyOf labRank consRank
  cases a.ctype <;> cases b.ctype <;>
    cases a.consistentRoom <;> cases b.consistentRoom <;>
      simp <;> omega

theorem compareCourses_lt_zero (a b : Course) :
    compareCourses a b < 0 ↔
      labRank a < labRank b ∨
        (labRank a = labRank b ∧
          (b.classesPerWeek < a.classesPerWeek ∨
            (a.classesPerWeek = b.classesPerWeek ∧ consRank a < consRank b))) := by
  unfold compareCourses labRank consRank
  cases a.ctype <;> cases b.ctype <;>
    cases a.consistentRoom <;> cases b.consistentRoom <;>
      simp <;> omega

theorem compareCourses_le_zero (a b : Course) :
    compareCourses a b ≤ 0 ↔ specKeyLe a b := by
  unfold compareCourses specKeyLe labRank consRank
  cases a.ctype <;> cases b.ctype <;>
    cases a.consistentRoom <;> cases b.consistentRoom <;>
      simp <;> omega

theorem compareCourses_le_total {a b : Course}
    (h : ¬ compareCourses a b < 0) : compareCourses b a ≤ 0 := by
  rw [compareCourses_lt_zero] at h
  rw [compareCourses_le_zero]
  unfold specKeyLe
  omega

theorem compareCourses_le_trans {a b c : Course}
    (h1 : compareCourses a b ≤ 0) (h2 : compareCourses b c ≤ 0) :
    compareCourses a c ≤ 0 := by
  rw [compareCourses_le_zero] at h1 h2 ⊢
  unfold specKeyLe at h1 h2 ⊢
  omega

theorem compareCourses_lt_le_trans {a b c : Course}
    (h1 : compareCourses a b < 0) (h2 : compareCourses b c ≤ 0) :
    compareCourses a c < 0 := by
  rw [compareCourses_lt_zero] at h1 ⊢
  rw [compareCourses_le_zero] at h2
  unfold specKeyLe at h2
  omega

theorem compareCourses_lt_key_ne {a b : Course}
    (h : compareCourses a b < 0) : keyOf a ≠ keyOf b := by
  intro hk
  rw [← compareCourses_eq_zero] at hk
  omega

/-- The stable insertion is a permutation with the new element in front. -/
theorem insertSorted_perm (x : Course) :
    ∀ l : List Course, (insertSorted x l).Perm (x :: l) := by
  intro l
  induction l with
  | nil => rfl
  | cons y ys ih =>
    rw [insertSorted]
    split
    · rfl
    · exact (List.Perm.cons y ih).trans (List.Perm.swap x y ys)

theorem mem_insertSorted {x a : Course} {l : List Course}
    (h : a ∈ insertSorted x l) : a = x ∨ a ∈ l := by
  have := (insertSorted_perm x l).mem_iff.mp h
  simpa using this

/-- Inserting keeps the list sorted by the comparator. -/
theorem insertSorted_sorted {x : Course} :
    ∀ {l : List Course}, l.Pairwise (fun a b => compareCourses a b ≤ 0) →
      (insertSorted x l).Pairwise (fun a b => compareCourses a b ≤ 0) := by
  intro l
  induction l with
  | nil =>
    intro _
    simp [insertSorted]
  | cons y ys ih =>
    intro hs
    rw [insertSorted]
    obtain ⟨hy, hys⟩ := List.pairwise_cons.mp hs
    split
    · rename_i hlt
      refine List.pairwise_cons.mpr ⟨?_, hs⟩
      intro z hz
      rcases List.mem_cons.mp hz with rfl | hz2
      · exact le_of_lt hlt
      · exact le_of_lt (compareCourses_lt_le_trans hlt (hy z hz2))
    · rename_i hge
      refine List.pairwise_cons.mpr ⟨?_, ih hys⟩
      intro z hz
      rcases mem_insertSorted hz with rfl | hz2
      · exact compareCourses_le_total hge
      · exact hy z hz2

theorem sortCoursesAux_perm :
    ∀ (l acc : List Course), (l.foldl (fun a x => insertSorted x a) acc).Perm (acc ++ l) := by
  intro l
  induction l with
  | nil => intro acc; simp
  | cons x xs ih =>
    intro acc
    rw [List.foldl_cons]
    refine (ih (insertSorted x acc)).trans ?_
    refine (List.Perm.append_right xs (insertSorted_perm x acc)).trans ?_
    exact List.perm_middle.symm

/-- The stable sort is a permutation of its input. -/
theorem sortCourses_perm (l : List Course) : (sortCourses l).Perm l := by
  have := sortCoursesAux_perm l []
  simpa [sortCourses] using this

theorem sortCoursesAux_sorted :
    ∀ (l acc : List Course), acc.Pairwise (fun a b => compareCourses a b ≤ 0) →
      (l.foldl (fun a x => insertSorted x a) acc).Pairwise
        (fun a b => compareCourses a b ≤ 0) := by
  intro l
  induction l with
  | nil => intro acc h; simpa using h
  | cons x xs ih =>
    intro acc h
    rw [List.foldl_cons]
    exact ih (insertSorted x acc) (insertSorted_sorted h)

/-- The stable sort orders by the composite key. -/
theorem sortCourses_sorted (l : List Course) :
    (sortCourses l).Pairwise specKeyLe := by
  have h := sortCoursesAux_sorted l [] (by simp)
  rw [sortCourses]
  exact h.imp fun hab => (compareCourses_le_zero _ _).mp hab

/-- Inserting into a sorted list keeps each key class in order, with the
new element at the end of its class. -/
theorem filter_insertSorted {x : Course} {k : Nat × Nat × Nat} :
    ∀ {l : List Course}, l.Pairwise (fun a b => compareCourses a b ≤ 0) →
      (insertSorted x l).filter (fun c => keyOf c = k) =
        if keyOf x = k then l.filter (fun c => keyOf c = k) ++ [x]
        else l.filter (fun c => keyOf c = k) := by
  intro l
  induction l with
  | nil =>
    intro _
    rw [insertSorted]
    by_cases hx : keyOf x = k
    · rw [if_pos hx]
      simp [hx]
    · rw [if_neg hx]
      simp [hx]
  | cons y ys ih =>
    intro hs
    obtain ⟨hy, hys⟩ := List.pairwise_cons.mp hs
    rw [insertSorted]
    split
    · rename_i hlt
      by_cases hx : keyOf x = k
      · rw [if_pos hx]
        have hempty : (y :: ys).filter (fun c => keyOf c = k) = [] := by
          rw [List.filter_eq_nil_iff]
          intro z hz
          simp only [decide_eq_true_eq]
          intro hzk
          have hxz : compareCourses x z < 0 := by
            rcases List.mem_cons.mp hz with rfl | hz2
            · exact hlt
            · exact compareCourses_lt_le_trans hlt (hy z hz2)
          exact compareCourses_lt_key_ne hxz (hx.trans hzk.symm)
        rw [List.filter_cons_of_pos (by simpa using hx), hempty]
        rfl
      · rw [if_neg hx]
        rw [List.filter_cons_of_neg (by simpa using hx)]
    · rename_i hge
      by_cases hyk : keyOf y = k
      · rw [List.filter_cons_of_pos (by simpa using hyk),
          List.filter_cons_of_pos (by simpa using hyk), ih hys]
        by_cases hx : keyOf x = k
        · rw [if_pos hx, if_pos hx]
          rfl
        · rw [if_neg hx, if_neg hx]
      · rw [List.filter_cons_of_neg (by simpa using hyk),
          List.filter_cons_of_neg (by simpa using hyk), ih hys]

theorem sortCoursesAux_filter {k : Nat × Nat × Nat} :
    ∀ (l acc : List Course), acc.Pairwise (fun a b => compareCourses a b ≤ 0) →
      (l.foldl (fun a x => insertSorted x a) acc).filter (fun c => keyOf c = k) =
        acc.filter (fun c => keyOf c = k) ++ l.filter (fun c => keyOf c = k) := by
  intro l
  induction l with
  | nil => intro acc _; simp
  | cons x xs ih =>
    intro acc h
    rw [List.foldl_cons, ih (insertSorted x acc) (insertSorted_sorted h),
      filter_insertSorted h]
    by_cases hx : keyOf x = k
    · rw [if_pos hx, List.filter_cons_of_pos (by simpa using hx)]
      simp
    · rw [if_neg hx, List.filter_cons_of_neg (by simpa using hx)]

/-- Stability: the stable sort keeps every key class exactly in input
order. -/
theorem sortCourses_filter (l : List Course) (k : Nat × Nat × Nat) :
    (sortCourses l).filter (fun c => keyOf c = k) =
      l.filter (fun c => keyOf c = k) := by
  have h := @sortCoursesAux_filter k l [] (by simp)
  rw [sortCourses]
  simpa using h

/-- The invariant only depends on the course collection up to order. -/
theorem inv_perm {s s2 : Schedule} (hinv : Inv s)
    (hp : s2.courses.Perm s.courses) (hg : s2.grid = s.grid)
    (hr : s2.rooms = s.rooms) : Inv s2 := by
  constructor
  · exact ((hp.map fun c => c.cid).symm).nodup hinv.nodup
  · intro c hc; exact hinv.wf c (hp.mem_iff.mp hc)
  · intro c hc; exact hinv.roomsWf c (hp.mem_iff.mp hc)
  · intro c hc; exact hinv.schedIff c (hp.mem_iff.mp hc)
  · intro c hc; exact hinv.unschedEmpty c (hp.mem_iff.mp hc)
  · intro c hc; exact hinv.slotOk c (hp.mem_iff.mp hc)
  · intro c hc
    rw [hg]
    exact hinv.gridCover c (hp.mem_iff.mp hc)
  · intro d t cid h
    rw [hg] at h
    obtain ⟨c, hc, hcid, hspan⟩ := hinv.gridSound d t cid h
    exact ⟨c, hp.mem_iff.mpr hc, hcid, hspan⟩
  · rw [hr]; exact hinv.roomsEq

/-- The ledger-and-results reset performed by `generateOptimalSchedule`
before sorting re-establishes the invariant. -/
theorem reset_inv {s : Schedule} (hinv : Inv s) :
    Inv { courses := s.courses.map fun c =>
            { c with scheduled := false, scheduledSlots := [], scheduledRooms := [] }
          grid := initializeGrid
          rooms := initializeRooms } := by
  constructor
  · rw [List.map_map]
    have : ((fun c : Course => c.cid) ∘ fun c =>
        { c with scheduled := false, scheduledSlots := [], scheduledRooms := [] }) =
        fun c : Course => c.cid := rfl
    rw [this]
    exact hinv.nodup
  · intro c hc
    obtain ⟨c0, hc0, rfl⟩ := List.mem_map.mp hc
    exact hinv.wf c0 hc0
  · intro c hc
    obtain ⟨c0, hc0, rfl⟩ := List.mem_map.mp hc
    simp
  · intro c hc
    obtain ⟨c0, hc0, rfl⟩ := List.mem_map.mp hc
    have h1 := (hinv.wf c0 hc0).1
    simp only [List.length_nil]
    constructor
    · intro h2; cases h2
    · intro h2; omega
  · intro c hc
    obtain ⟨c0, hc0, rfl⟩ := List.mem_map.mp hc
    intro _
    exact ⟨rfl, rfl⟩
  · intro c hc
    obtain ⟨c0, hc0, rfl⟩ := List.mem_map.mp hc
    simp
  · intro c hc
    obtain ⟨c0, hc0, rfl⟩ := List.mem_map.mp hc
    simp
  · intro d t cid h
    simp [initializeGrid] at h
  · rfl

/-- Scheduling every course of a nodup list of unscheduled cids, in order,
preserves the invariant. -/
theorem runAll_inv :
    ∀ (cids : List Nat) (s : Schedule), Inv s → cids.Nodup →
      (∀ cid ∈ cids, ∃ c ∈ s.courses, c.cid = cid ∧ c.scheduled = false) →
      Inv (runAll s cids).1 := by
  intro cids
  induction cids with
  | nil => intro s hinv _ _; exact hinv
  | cons cid rest ih =>
    intro s hinv hnd hall
    obtain ⟨c0, hc0, hcid, hun⟩ := hall cid (List.mem_cons_self cid rest)
    obtain ⟨hinv1, -, c2, hc2cid, hcourses⟩ := scheduleCourse_ok hinv hc0 hcid hun
    have hres : (runAll s (cid :: rest)).1 = (runAll (scheduleCourse s cid).1 rest).1 :=
      rfl
    rw [hres]
    obtain ⟨hhead, hrest⟩ := List.nodup_cons.mp hnd
    refine ih (scheduleCourse s cid).1 hinv1 hrest ?_
    intro cid2 h2
    obtain ⟨c, hc, hccid, hcun⟩ := hall cid2 (List.mem_cons_of_mem cid h2)
    have hne : c.cid ≠ cid := by
      rw [hccid]
      intro heq
      exact hhead (heq ▸ h2)
    refine ⟨c, ?_, hccid, hcun⟩
    rw [hcourses]
    have : (if c.cid = cid then c2 else c) = c := if_neg hne
    exact this ▸ List.mem_map_of_mem _ hc

/-- `generateOptimalSchedule` preserves the invariant. -/
theorem generate_inv {s : Schedule} (hinv : Inv s) :
    Inv (generateOptimalSchedule s) := by
  unfold generateOptimalSchedule
  by_cases hemp : s.courses = []
  · rw [if_pos hemp]; exact hinv
  · rw [if_neg hemp]
    have hreset := reset_inv hinv
    set reset : Schedule :=
      { courses := s.courses.map fun c =>
          { c with scheduled := false, scheduledSlots := [], scheduledRooms := [] }
        grid := initializeGrid
        rooms := initializeRooms } with hresetdef
    have hsorted : Inv { reset with courses := sortCourses reset.courses } :=
      inv_perm hreset (sortCourses_perm reset.courses) rfl rfl
    refine runAll_inv _ _ hsorted ?_ ?_
    · exact hsorted.nodup
    · intro cid hc
      obtain ⟨c, hcmem, hccid⟩ := List.mem_map.mp hc
      refine ⟨c, hcmem, hccid, ?_⟩
      have := (sortCourses_perm reset.courses).mem_iff.mp hcmem
      obtain ⟨c0, -, rfl⟩ := List.mem_map.mp this
      rfl

/-- Dropping a member whose session list is empty preserves the
invariant. -/
theorem erase_inv {s : Schedule} (hinv : Inv s) {i : Nat} {c1 : Course}
    (hget : s.courses[i]? = some c1) (hslots : c1.scheduledSlots = []) :
    Inv { s with courses := s.courses.eraseIdx i } := by
  have hsub : List.Sublist (s.courses.eraseIdx i) s.courses :=
    List.eraseIdx_sublist s.courses i
  have hmem : ∀ c ∈ s.courses.eraseIdx i, c ∈ s.courses := fun c hc => hsub.mem hc
  constructor
  · exact hinv.nodup.sublist (hsub.map fun c => c.cid)
  · intro c hc; exact hinv.wf c (hmem c hc)
  · intro c hc; exact hinv.roomsWf c (hmem c hc)
  · intro c hc; exact hinv.schedIff c (hmem c hc)
  · intro c hc; exact hinv.unschedEmpty c (hmem c hc)
  · intro c hc; exact hinv.slotOk c (hmem c hc)
  · intro c hc; exact hinv.gridCover c (hmem c hc)
  · intro d t cid h
    obtain ⟨c, hc, hcid, hspan⟩ := hinv.gridSound d t cid h
    have hne : c ≠ c1 := by
      rintro rfl
      obtain ⟨p, hp, -⟩ := hspan
      rw [hslots] at hp
      cases hp
    refine ⟨c, ?_, hcid, hspan⟩
    exact mem_eraseIdx_of_ne s.courses i c hc (by rw [hget]; simpa using hne.symm)
  · exact hinv.roomsEq

/-- Reduction of `removeCourse` once the index hits a course. -/
theorem removeCourse_eq_found {s : Schedule} {i : Nat} {course : Course}
    (hget : s.courses[i]? = some course) :
    removeCourse s i =
      { (if course.scheduled then unscheduleCourse s course.cid else s) with
        courses := (if course.scheduled then unscheduleCourse s course.cid
          else s).courses.eraseIdx i } := by
  unfold removeCourse
  rw [hget]

/-- `removeCourse` preserves the invariant for any index. -/
theorem removeCourse_inv {s : Schedule} (hinv : Inv s) (i : Nat) :
    Inv (removeCourse s i) := by
  cases hget : s.courses[i]? with
  | none =>
    have : removeCourse s i = s := by
      unfold removeCourse
      rw [hget]
    rw [this]
    exact hinv
  | some course =>
    rw [removeCourse_eq_found hget]
    by_cases hsch : course.scheduled = true
    · rw [if_pos hsch]
      have hinv1 := unscheduleCourse_inv hinv course.cid
      have hget1 : (unscheduleCourse s course.cid).courses[i]? = some
          { course with scheduled := false, scheduledSlots := [], scheduledRooms := [] } := by
        show (s.courses.map _)[i]? = _
        rw [List.getElem?_map, hget]
        simp
      exact erase_inv hinv1 hget1 rfl
    · rw [if_neg hsch]
      have hcmem : course ∈ s.courses := List.getElem?_mem hget
      have hempty := hinv.unschedEmpty course hcmem (by
        cases h : course.scheduled
        · rfl
        · exact absurd h hsch)
      exact erase_inv hinv hget hempty.1

/-- A single valid engine operation preserves the invariant. -/
theorem applyOp_inv {s : Schedule} (hinv : Inv s) {op : EngineOp}
    (hv : ValidOp op) : Inv (applyOp s op) := by
  cases op with
  | add ty n b fl rm =>
    obtain ⟨hn1, hn5, hfl, hrm⟩ := hv
    refine addCourse_inv hinv hn1 hn5 ?_ ?_
    · intro f hf
      rw [hf] at hfl
      exact hfl
    · intro r hr
      rw [hr] at hrm
      exact hrm
  | remove i => exact removeCourse_inv hinv i
  | generate => exact generate_inv hinv
  | clear => exact clearSchedule_inv s

/-- Any sequence of valid engine operations preserves the invariant. -/
theorem applyOps_inv :
    ∀ (ops : List EngineOp) (s : Schedule), Inv s → (∀ op ∈ ops, ValidOp op) →
      Inv (applyOps s ops) := by
  intro ops
  induction ops with
  | nil => intro s hinv _; exact hinv
  | cons op rest ih =>
    intro s hinv hall
    have h1 : applyOps s (op :: rest) = applyOps (applyOp s op) rest := rfl
    rw [h1]
    exact ih (applyOp s op)
      (applyOp_inv hinv (hall op (List.mem_cons_self op rest)))
      fun o ho => hall o (List.mem_cons_of_mem op ho)

/-- Every state reachable from the initial page by valid operations
satisfies the invariant. -/
theorem reachable_inv (ops : List EngineOp) (hv : ∀ op ∈ ops, ValidOp op) :
    Inv (applyOps initState ops) :=
  applyOps_inv ops initState inv_initState hv

/-- A committed session never touches the room inventory. -/
theorem scheduleClassSession_rooms {s : Schedule} {cid : Nat} {slot : Nat × Nat}
    {u : Bool} {s2 : Schedule} (h : scheduleClassSession s cid slot u = some s2) :
    s2.rooms = s.rooms := by
  cases hf : s.courses.find? fun c => c.cid = cid with
  | none =>
    unfold scheduleClassSession at h
    rw [hf] at h
    replace h : (none : Option Schedule) = some s2 := h
    cases h
  | some course =>
    rw [scheduleClassSession_eq_found hf] at h
    cases hr : sessionRoom s course slot.1 slot.2 u with
    | none =>
      rw [hr] at h
      replace h : (none : Option Schedule) = some s2 := h
      cases h
    | some fr =>
      rw [hr] at h
      replace h : some { (updateCourse s cid fun _ =>
          commitCourse course slot.1 slot.2 fr) with
          grid := writeSpan s.grid slot.1 slot.2 cid course.duration } = some s2 := h
      obtain rfl := Option.some.inj h
      rfl

/-- The session loop never touches the room inventory. -/
theorem sessionsLoop_rooms :
    ∀ (slots : List (Nat × Nat)) (s : Schedule) (cid : Nat) (first : Bool),
      (sessionsLoop s cid first slots).1.rooms = s.rooms := by
  intro slots
  induction slots with
  | nil => intro s cid first; rfl
  | cons sl rest ih =>
    intro s cid first
    cases h : scheduleClassSession s cid sl (!first) with
    | none =>
      rw [sessionsLoop, h]
    | some s2 =>
      rw [sessionsLoop_cons_some h, ih s2 cid false]
      exact scheduleClassSession_rooms h

/-- A whole course transaction never touches the room inventory. -/
theorem scheduleCourse_rooms (s : Schedule) (cid : Nat) :
    (scheduleCourse s cid).1.rooms = s.rooms := by
  cases hf : s.courses.find? fun c => c.cid = cid with
  | none =>
    have h : scheduleCourse s cid = (s, false) := by
      unfold scheduleCourse
      rw [hf]
    rw [h]
  | some course =>
    rw [scheduleCourse_eq_found hf]
    by_cases hlen : (findAvailableTimeSlots s course course.classesPerWeek).length <
        course.classesPerWeek
    · rw [if_pos hlen]
    · rw [if_neg hlen]
      have hloopr := sessionsLoop_rooms
        ((findAvailableTimeSlots s course course.classesPerWeek).take
          course.classesPerWeek)
        (updateCourse s cid fun c =>
          { c with scheduledSlots := [], scheduledRooms := [] }) cid true
      cases hloop : sessionsLoop (updateCourse s cid fun c =>
          { c with scheduledSlots := [], scheduledRooms := [] }) cid true
          ((findAvailableTimeSlots s course course.classesPerWeek).take
            course.classesPerWeek) with
      | mk s2 b =>
        rw [hloop] at hloopr
        cases b with
        | true => exact hloopr
        | false => exact hloopr

/-- Undoing a transaction never touches the room inventory. -/
theorem unscheduleCourse_rooms (s : Schedule) (cid : Nat) :
    (unscheduleCourse s cid).rooms = s.rooms := rfl

/-- Removing a course never touches the room inventory. -/
theorem removeCourse_rooms (s : Schedule) (i : Nat) :
    (removeCourse s i).rooms = s.rooms := by
  cases hget : s.courses[i]? with
  | none =>
    have h : removeCourse s i = s := by
      unfold removeCourse
      rw [hget]
    rw [h]
  | some course =>
    rw [removeCourse_eq_found hget]
    by_cases h : course.scheduled = true
    · rw [if_pos h]
      rfl
    · rw [if_neg h]

/-- The scheduling loop of a run never touches the room inventory. -/
theorem runAll_rooms :
    ∀ (cids : List Nat) (s : Schedule), (runAll s cids).1.rooms = s.rooms := by
  intro cids
  induction cids with
  | nil => intro s; rfl
  | cons cid rest ih =>
    intro s
    have h : (runAll s (cid :: rest)).1 = (runAll (scheduleCourse s cid).1 rest).1 := rfl
    rw [h, ih (scheduleCourse s cid).1, scheduleCourse_rooms]

/-- A run on a nonempty collection leaves the room inventory exactly as
`initializeRooms` wrote it. -/
theorem generate_rooms {s : Schedule} (h : s.courses ≠ []) :
    (generateOptimalSchedule s).rooms = initializeRooms := by
  unfold generateOptimalSchedule
  rw [if_neg h, runAll_rooms]

/-- Clearing the schedule reinitializes the room inventory. -/
theorem clearSchedule_rooms (s : Schedule) :
    (clearSchedule s).rooms = initializeRooms := rfl

/-- Rooms 1..13 of floors 1..7 start (and stay) free. -/
theorem initializeRooms_true {f r : Nat} (hf1 : 1 ≤ f) (hf7 : f ≤ 7)
    (hr1 : 1 ≤ r) (hr13 : r ≤ 13) : initializeRooms f r = true := by
  unfold initializeRooms
  rw [if_pos ⟨hf1, hf7, hr1, hr13⟩]

/-- Rooms 14 and 15 of every floor start (and stay) unusable. -/
theorem initializeRooms_false_hi (f : Nat) :
    initializeRooms f 14 = false ∧ initializeRooms f 15 = false := by
  constructor
  · unfold initializeRooms
    rw [if_neg (by omega)]
  · unfold initializeRooms
    rw [if_neg (by omega)]

/-- Erasing the element at a position of a cid-nodup list leaves no member
with its cid. -/
theorem nodup_eraseIdx_cid :
    ∀ (l : List Course), ((l.map fun c => c.cid).Nodup) → ∀ (i : Nat) (a : Course),
      l[i]? = some a → ∀ b ∈ l.eraseIdx i, b.cid ≠ a.cid := by
  intro l
  induction l with
  | nil =>
    intro _ i a ha
    simp at ha
  | cons x tl ih =>
    intro hnd i a ha b hb
    have hnd2 : (x.cid :: tl.map fun c => c.cid).Nodup := by simpa using hnd
    obtain ⟨hx, htl⟩ := List.nodup_cons.mp hnd2
    cases i with
    | zero =>
      have hax : x = a := by simpa using ha
      subst hax
      have hbtl : b ∈ tl := by simpa [List.eraseIdx] using hb
      intro hc
      exact hx (by
        rw [← hc]
        exact List.mem_map_of_mem _ hbtl)
    | succ j =>
      have ha2 : tl[j]? = some a := by simpa using ha
      have hb2 : b = x ∨ b ∈ tl.eraseIdx j := by simpa [List.eraseIdx] using hb
      rcases hb2 with rfl | hb3
      · intro hc
        have hamem : a ∈ tl := List.getElem?_mem ha2
        exact hx (by
          rw [hc]
          exact List.mem_map_of_mem _ hamem)
      · exact ih htl j a ha2 b hb3

/-- Full effect of `removeCourse` on a scheduled course: exactly its grid
cells are blanked, the inventory is untouched and its held rooms read
free, the course disappears, and every other course and its cells are
left alone. -/
theorem removeCourse_scheduled_spec {s : Schedule} (hinv : Inv s) {i : Nat}
    {c : Course} (hget : s.courses[i]? = some c) (hsch : c.scheduled = true) :
    (∀ d t, (removeCourse s i).grid d t =
      if s.grid d t = some c.cid then none else s.grid d t) ∧
    (removeCourse s i).rooms = s.rooms ∧
    (∀ e ∈ c.scheduledRooms, (removeCourse s i).rooms e.2.1 e.2.2 = true) ∧
    (∀ c2 ∈ (removeCourse s i).courses, c2.cid ≠ c.cid) ∧
    (∀ c2 ∈ s.courses, c2.cid ≠ c.cid → c2 ∈ (removeCourse s i).courses) ∧
    (removeCourse s i).courses.length + 1 = s.courses.length ∧
    (∀ c2 ∈ s.courses, c2.cid ≠ c.cid → ∀ p ∈ c2.scheduledSlots,
      ∀ j < c2.duration, (removeCourse s i).grid p.1 (p.2 + j) = some c2.cid) ∧
    (∀ p ∈ c.scheduledSlots, ∀ j < c.duration,
      (removeCourse s i).grid p.1 (p.2 + j) = none) := by
  have hmem : c ∈ s.courses := List.getElem?_mem hget
  have hs2 : removeCourse s i =
      { unscheduleCourse s c.cid with
        courses := (unscheduleCourse s c.cid).courses.eraseIdx i } := by
    rw [removeCourse_eq_found hget, if_pos hsch]
  have hgrid : ∀ d t, (removeCourse s i).grid d t =
      if s.grid d t = some c.cid then none else s.grid d t := by
    intro d t
    rw [hs2]
    show (if d < 5 ∧ t < 13 ∧ s.grid d t = some c.cid then none else s.grid d t) = _
    by_cases hcell : s.grid d t = some c.cid
    · rw [if_pos hcell]
      obtain ⟨c3, hc3, hc3cid, hspan⟩ := hinv.gridSound d t c.cid hcell
      have hc3c : c3 = c := nodup_cid_inj hinv.nodup hc3 hmem hc3cid
      subst hc3c
      obtain ⟨p, hp, hpd, hpt, hptd⟩ := hspan
      obtain ⟨hd5, hok⟩ := hinv.slotOk c3 hc3 p hp
      have hok2 : (∀ k < c3.duration, p.2 + k ≠ 6) ∧ p.2 + c3.duration ≤ 13 := hok
      rw [if_pos ⟨by omega, by omega, hcell⟩]
    · rw [if_neg hcell, if_neg fun hcon => hcell hcon.2.2]
  have hcourses : (removeCourse s i).courses =
      ((s.courses.map fun c2 => if c2.cid = c.cid then
        { c2 with scheduled := false, scheduledSlots := [], scheduledRooms := [] }
        else c2).eraseIdx i) := by
    rw [hs2]
    rfl
  have hmapped : (s.courses.map fun c2 => if c2.cid = c.cid then
      { c2 with scheduled := false, scheduledSlots := [], scheduledRooms := [] }
      else c2)[i]? = some
      { c with scheduled := false, scheduledSlots := [], scheduledRooms := [] } := by
    rw [List.getElem?_map, hget]
    simp
  have hmappednd : ((s.courses.map fun c2 => if c2.cid = c.cid then
      { c2 with scheduled := false, scheduledSlots := [], scheduledRooms := [] }
      else c2).map fun c2 => c2.cid).Nodup := by
    rw [map_reset_cids]
    · exact hinv.nodup
    · intro c2; rfl
  refine ⟨hgrid, ?_, ?_, ?_, ?_, ?_, ?_, ?_⟩
  · rw [hs2]
    rfl
  · intro e he
    obtain ⟨-, he1, he7, he2, he13⟩ := hinv.roomsWf c hmem e he
    have hrm : (removeCourse s i).rooms = s.rooms := removeCourse_rooms s i
    rw [hrm, hinv.roomsEq]
    exact initializeRooms_true he1 he7 he2 he13
  · intro c2 hc2
    rw [hcourses] at hc2
    exact nodup_eraseIdx_cid _ hmappednd i _ hmapped c2 hc2
  · intro c2 hc2 hne
    rw [hcourses]
    have hself : (if c2.cid = c.cid then
        { c2 with scheduled := false, scheduledSlots := [], scheduledRooms := [] }
        else c2) = c2 := if_neg hne
    refine mem_eraseIdx_of_ne _ i c2 ?_ ?_
    · exact hself ▸ List.mem_map_of_mem _ hc2
    · rw [hmapped]
      intro hcon
      have := Option.some.inj hcon
      exact hne (by rw [← this])
  · rw [hcourses, List.length_eraseIdx]
    have hi : i < (s.courses.map fun c2 => if c2.cid = c.cid then
        { c2 with scheduled := false, scheduledSlots := [], scheduledRooms := [] }
        else c2).length := by
      rw [List.length_map]
      exact (List.getElem?_eq_some.mp hget).1
    rw [if_pos hi, List.length_map]
    have := (List.getElem?_eq_some.mp hget).1
    omega
  · intro c2 hc2 hne p hp j hj
    rw [hgrid p.1 (p.2 + j)]
    have hcov := hinv.gridCover c2 hc2 p hp j hj
    rw [if_neg (by
      rw [hcov]
      intro hcon
      exact hne (by simpa using hcon))]
    exact hcov
  · intro p hp j hj
    rw [hgrid p.1 (p.2 + j), if_pos (hinv.gridCover c hmem p hp j hj)]

end Part001


namespace ScriptJs

/-- Distinct members of a cid-nodup list have distinct cids
(`src/script.js` courses). -/
theorem nodup_cid_inj_js {l : List Course} (h : (l.map fun c => c.cid).Nodup)
    {a b : Course} (ha : a ∈ l) (hb : b ∈ l) (hcid : a.cid = b.cid) : a = b :=
  List.inj_on_of_nodup_map h ha hb hcid

/-- Looking a member course up by its cid returns exactly that course
(`src/script.js` courses). -/
theorem find?_cid_js {l : List Course} (hnd : (l.map fun c => c.cid).Nodup) :
    ∀ {c : Course}, c ∈ l → (l.find? fun x => x.cid = c.cid) = some c := by
  induction l with
  | nil => intro c hc; cases hc
  | cons y tl ih =>
    intro c hc
    by_cases hy : y.cid = c.cid
    · have hcy : c = y := by
        rcases List.mem_cons.mp hc with rfl | htl
        · rfl
        · exact nodup_cid_inj_js hnd (List.mem_cons_of_mem _ htl)
            (List.mem_cons_self ..) hy.symm
      subst hcy
      exact List.find?_cons_of_pos _ (by simp)
    · have hctl : c ∈ tl := by
        rcases List.mem_cons.mp hc with rfl | htl
        · exact absurd rfl hy
        · exact htl
      rw [List.find?_cons_of_neg _ (by simpa using hy)]
      exact ih (by simpa using (List.nodup_cons.mp (by simpa using hnd)).2) hctl

/-- Replacing a member by itself is the identity (`src/script.js`
courses). -/
theorem map_update_self_js {l : List Course} {a : Course}
    (hnd : (l.map fun c => c.cid).Nodup) (hmem : a ∈ l) :
    (l.map fun c => if c.cid = a.cid then a else c) = l := by
  have h : ∀ c ∈ l, (if c.cid = a.cid then a else c) = c := by
    intro c hc
    by_cases hcc : c.cid = a.cid
    · rw [if_pos hcc, nodup_cid_inj_js hnd hmem hc hcc.symm]
    · rw [if_neg hcc]
  rw [List.map_congr_left h]
  simp

/-- The cid sequence is untouched by a cid-preserving update
(`src/script.js` courses). -/
theorem map_update_cids_js (l : List Course) (cid : Nat) (a : Course)
    (ha : a.cid = cid) :
    ((l.map fun c => if c.cid = cid then a else c).map fun c => c.cid) =
      l.map fun c => c.cid := by
  rw [List.map_map]
  apply List.map_congr_left
  intro c _
  by_cases h : c.cid = cid <;> simp [Function.comp, h, ha]

/-- The run invariant of the `src/script.js` allocator: every scheduled
course has its assigned room marked used in the inventory, and two
distinct scheduled courses never hold the same (floor, room). -/
def RoomsOk (s : Schedule) : Prop :=
  (∀ c ∈ s.courses, c.scheduled = true →
    ∃ f r, c.floor = some f ∧ c.room = some r ∧ s.rooms f r = false) ∧
  (∀ c1 ∈ s.courses, ∀ c2 ∈ s.courses, c1.scheduled = true → c2.scheduled = true →
    c1.cid ≠ c2.cid → (c1.floor, c1.room) ≠ (c2.floor, c2.room))

/-- The room search only returns rooms the inventory shows free. -/
theorem findAvailableRoom_free {s : Schedule} {fl : Option Nat} {fr : Nat × Nat}
    (h : findAvailableRoom s fl = some fr) : s.rooms fr.1 fr.2 = true := by
  unfold findAvailableRoom at h
  cases fl with
  | some f =>
    obtain ⟨room, hfind, hfr⟩ := Option.map_eq_some'.mp h
    rw [← hfr]
    exact List.find?_some hfind
  | none =>
    obtain ⟨f, hf, hsome⟩ := List.exists_of_findSome?_eq_some h
    obtain ⟨room, hfind, hfr⟩ := Option.map_eq_some'.mp hsome
    rw [← hfr]
    exact List.find?_some hfind

/-- A passing preference test names a room the inventory shows free. -/
theorem prefOk_free {s : Schedule} {course : Course} {day t : Nat}
    (h : prefOk s course day t = true) :
    ∃ f r, course.floor = some f ∧ course.room = some r ∧
      s.rooms f r = true := by
  unfold prefOk at h
  cases hf : course.floor with
  | none =>
    cases hr : course.room with
    | none =>
      rw [hf, hr] at h
      replace h : false = true := h
      cases h
    | some r =>
      rw [hf, hr] at h
      replace h : false = true := h
      cases h
  | some f =>
    cases hr : course.room with
    | none =>
      rw [hf, hr] at h
      replace h : false = true := h
      cases h
    | some r =>
      rw [hf, hr] at h
      replace h : (s.rooms f r && isRoomAvailable s f r day t course.duration) = true := h
      simp only [Bool.and_eq_true] at h
      exact ⟨f, r, rfl, rfl, h.1⟩

/-- Whatever branch assigns the room, the room was free in the inventory
at assignment time. -/
theorem assignedRoom_free {s : Schedule} {course : Course} {day t : Nat}
    {fr : Nat × Nat} (h : assignedRoom s course day t = some fr) :
    s.rooms fr.1 fr.2 = true := by
  unfold assignedRoom at h
  by_cases hp : prefOk s course day t = true
  · rw [if_pos hp] at h
    obtain ⟨f, r, hf, hr, hfree⟩ := prefOk_free hp
    rw [hf, hr] at h
    replace h : some (f, r) = some fr := h
    obtain rfl := (Option.some.inj h).symm
    exact hfree
  · rw [if_neg hp] at h
    exact findAvailableRoom_free h

theorem clearPref_cid (course : Course) (ok : Bool) :
    (clearPref course ok).cid = course.cid := by
  obtain ⟨x1, x2, fl, rm, x5, x6, x7⟩ := course
  unfold clearPref
  cases fl <;> cases rm <;> cases ok <;> rfl

theorem clearPref_scheduled (course : Course) (ok : Bool) :
    (clearPref course ok).scheduled = course.scheduled := by
  obtain ⟨x1, x2, fl, rm, x5, x6, x7⟩ := course
  unfold clearPref
  cases fl <;> cases rm <;> cases ok <;> rfl

/-- Reduction of `scheduleCourse` of `src/script.js` once the course is
found. -/
theorem scheduleCourse_eq_found_js {s : Schedule} {cid : Nat} {course : Course}
    (hfind : (s.courses.find? fun c => c.cid = cid) = some course) :
    scheduleCourse s cid =
      match findAvailableTimeSlot s course with
      | none => (s, false)
      | some (day, t) =>
        match assignedRoom s course day t with
        | none =>
          (updateCourse s cid fun _ => clearPref course (prefOk s course day t), false)
        | some fr =>
          ({ (updateCourse s cid fun _ =>
              { clearPref course (prefOk s course day t) with
                floor := some fr.1, room := some fr.2, scheduled := true,
                day := some day, timeIndex := some t }) with
            grid := Part001.writeSpan s.grid day t cid course.duration
            rooms := fun f r => if f = fr.1 ∧ r = fr.2 then false else s.rooms f r },
            true) := by
  unfold scheduleCourse
  rw [hfind]

theorem scheduleCourse_eq_noslot_js {s : Schedule} {cid : Nat} {course : Course}
    (hfind : (s.courses.find? fun c => c.cid = cid) = some course)
    (hslot : findAvailableTimeSlot s course = none) :
    scheduleCourse s cid = (s, false) := by
  rw [scheduleCourse_eq_found_js hfind, hslot]

theorem scheduleCourse_eq_slot_js {s : Schedule} {cid : Nat} {course : Course}
    {day t : Nat}
    (hfind : (s.courses.find? fun c => c.cid = cid) = some course)
    (hslot : findAvailableTimeSlot s course = some (day, t)) :
    scheduleCourse s cid =
      match assignedRoom s course day t with
      | none =>
        (updateCourse s cid fun _ => clearPref course (prefOk s course day t), false)
      | some fr =>
        ({ (updateCourse s cid fun _ =>
            { clearPref course (prefOk s course day t) with
              floor := some fr.1, room := some fr.2, scheduled := true,
              day := some day, timeIndex := some t }) with
          grid := Part001.writeSpan s.grid day t cid course.duration
          rooms := fun f r => if f = fr.1 ∧ r = fr.2 then false else s.rooms f r },
          true) := by
  rw [scheduleCourse_eq_found_js hfind, hslot]

theorem scheduleCourse_eq_fail_js {s : Schedule} {cid : Nat} {course : Course}
    {day t : Nat}
    (hfind : (s.courses.find? fun c => c.cid = cid) = some course)
    (hslot : findAvailableTimeSlot s course = some (day, t))
    (hassign : assignedRoom s course day t = none) :
    scheduleCourse s cid =
      (updateCourse s cid fun _ => clearPref course (prefOk s course day t), false) := by
  rw [scheduleCourse_eq_slot_js hfind hslot, hassign]

theorem scheduleCourse_eq_ok_js {s : Schedule} {cid : Nat} {course : Course}
    {day t : Nat} {fr : Nat × Nat}
    (hfind : (s.courses.find? fun c => c.cid = cid) = some course)
    (hslot : findAvailableTimeSlot s course = some (day, t))
    (hassign : assignedRoom s course day t = some fr) :
    scheduleCourse s cid =
      ({ courses := s.courses.map fun c => if c.cid = cid then
            { clearPref course (prefOk s course day t) with
              floor := some fr.1, room := some fr.2, scheduled := true,
              day := some day, timeIndex := some t } else c,
         grid := Part001.writeSpan s.grid day t cid course.duration,
         rooms := fun f r => if f = fr.1 ∧ r = fr.2 then false else s.rooms f r },
        true) := by
  rw [scheduleCourse_eq_slot_js hfind hslot, hassign]
  rfl

/-- Replacing an unscheduled course object by another unscheduled one
keeps the run invariant. -/
theorem roomsOk_update_unsched {s : Schedule} (hro : RoomsOk s) {cid : Nat}
    {c2 : Course} (hc2 : c2.scheduled = false) :
    RoomsOk { s with courses := s.courses.map fun c => if c.cid = cid then c2 else c } := by
  constructor
  · intro c hc hsch
    obtain ⟨a, ha, rfl⟩ := List.mem_map.mp hc
    by_cases hac : a.cid = cid
    · rw [if_pos hac] at hsch
      rw [hc2] at hsch
      cases hsch
    · rw [if_neg hac] at hsch ⊢
      exact hro.1 a ha hsch
  · intro b1 hb1 b2 hb2 hs1 hs2 hne
    obtain ⟨a1, ha1, rfl⟩ := List.mem_map.mp hb1
    obtain ⟨a2, ha2, rfl⟩ := List.mem_map.mp hb2
    by_cases h1 : a1.cid = cid
    · rw [if_pos h1] at hs1
      rw [hc2] at hs1
      cases hs1
    · by_cases h2 : a2.cid = cid
      · rw [if_pos h2] at hs2
        rw [hc2] at hs2
        cases hs2
      · rw [if_neg h1] at hs1 hne ⊢
        rw [if_neg h2] at hs2 hne ⊢
        exact hro.2 a1 ha1 a2 ha2 hs1 hs2 hne

/-- Assigning a free room to one course and marking it used keeps the run
invariant. -/
theorem roomsOk_assign {s : Schedule} (hro : RoomsOk s) {cid : Nat}
    {c2 : Course} {fr : Nat × Nat} (g : Nat → Nat → Option Nat)
    (hfree : s.rooms fr.1 fr.2 = true)
    (hc2f : c2.floor = some fr.1) (hc2r : c2.room = some fr.2) :
    RoomsOk { courses := s.courses.map fun c => if c.cid = cid then c2 else c,
              grid := g,
              rooms := fun f r => if f = fr.1 ∧ r = fr.2 then false
                else s.rooms f r } := by
  constructor
  · intro c hc hsch
    obtain ⟨a, ha, rfl⟩ := List.mem_map.mp hc
    by_cases hac : a.cid = cid
    · rw [if_pos hac]
      refine ⟨fr.1, fr.2, hc2f, hc2r, ?_⟩
      show (if fr.1 = fr.1 ∧ fr.2 = fr.2 then false else s.rooms fr.1 fr.2) = false
      rw [if_pos ⟨rfl, rfl⟩]
    · rw [if_neg hac] at hsch ⊢
      obtain ⟨f, r, hf, hr, hused⟩ := hro.1 a ha hsch
      refine ⟨f, r, hf, hr, ?_⟩
      show (if f = fr.1 ∧ r = fr.2 then false else s.rooms f r) = false
      by_cases hfr2 : f = fr.1 ∧ r = fr.2
      · rw [if_pos hfr2]
      · rw [if_neg hfr2]
        exact hused
  · intro b1 hb1 b2 hb2 hs1 hs2 hne
    obtain ⟨a1, ha1, rfl⟩ := List.mem_map.mp hb1
    obtain ⟨a2, ha2, rfl⟩ := List.mem_map.mp hb2
    by_cases h1 : a1.cid = cid
    · by_cases h2 : a2.cid = cid
      · rw [if_pos h1, if_pos h2] at hne
        exact absurd rfl hne
      · rw [if_neg h2] at hs2
        obtain ⟨f, r, hf, hr, hused⟩ := hro.1 a2 ha2 hs2
        rw [if_pos h1, if_neg h2, hc2f, hc2r, hf, hr]
        intro heq
        simp only [Prod.mk.injEq, Option.some.injEq] at heq
        obtain ⟨hfeq, hreq⟩ := heq
        rw [← hfeq, ← hreq] at hused
        rw [hfree] at hused
        cases hused
    · by_cases h2 : a2.cid = cid
      · rw [if_neg h1] at hs1
        obtain ⟨f, r, hf, hr, hused⟩ := hro.1 a1 ha1 hs1
        rw [if_neg h1, if_pos h2, hc2f, hc2r, hf, hr]
        intro heq
        simp only [Prod.mk.injEq, Option.some.injEq] at heq
        obtain ⟨hfeq, hreq⟩ := heq
        rw [hfeq, hreq] at hused
        rw [hfree] at hused
        cases hused
      · rw [if_neg h1] at hs1 ⊢
        rw [if_neg h2] at hs2 ⊢
        rw [if_neg h1, if_neg h2] at hne
        exact hro.2 a1 ha1 a2 ha2 hs1 hs2 hne

/-- One `scheduleCourse` call of `src/script.js` on an unscheduled course
keeps the run invariant and only replaces that course's object. -/
theorem scheduleCourse_step {s : Schedule}
    (hnd : (s.courses.map fun c => c.cid).Nodup) {cid : Nat} {c0 : Course}
    (hc0 : c0 ∈ s.courses) (hcid : c0.cid = cid) (hun : c0.scheduled = false)
    (hro : RoomsOk s) :
    RoomsOk (scheduleCourse s cid).1 ∧
    ∃ c2 : Course, c2.cid = cid ∧
      (scheduleCourse s cid).1.courses =
        s.courses.map fun c => if c.cid = cid then c2 else c := by
  have hfind : (s.courses.find? fun c => c.cid = cid) = some c0 := by
    have h := find?_cid_js hnd hc0
    simp only [hcid] at h
    exact h
  cases hslot : findAvailableTimeSlot s c0 with
  | none =>
    rw [scheduleCourse_eq_noslot_js hfind hslot]
    refine ⟨hro, c0, hcid, ?_⟩
    rw [← hcid]
    exact (map_update_self_js hnd hc0).symm
  | some p =>
    obtain ⟨day, t⟩ := p
    cases hassign : assignedRoom s c0 day t with
    | none =>
      rw [scheduleCourse_eq_fail_js hfind hslot hassign]
      refine ⟨?_, clearPref c0 (prefOk s c0 day t),
        (clearPref_cid c0 _).trans hcid, rfl⟩
      exact roomsOk_update_unsched hro ((clearPref_scheduled c0 _).trans hun)
    | some fr =>
      rw [scheduleCourse_eq_ok_js hfind hslot hassign]
      refine ⟨?_, { clearPref c0 (prefOk s c0 day t) with
          floor := some fr.1, room := some fr.2, scheduled := true,
          day := some day, timeIndex := some t },
        (clearPref_cid c0 _).trans hcid, rfl⟩
      exact roomsOk_assign hro (Part001.writeSpan s.grid day t cid c0.duration)
        (assignedRoom_free hassign) rfl rfl

/-- The whole scheduling loop of a `src/script.js` run keeps the run
invariant. -/
theorem runAll_roomsOk_js :
    ∀ (cids : List Nat) (s : Schedule), RoomsOk s →
      ((s.courses.map fun c => c.cid).Nodup) → cids.Nodup →
      (∀ cid ∈ cids, ∃ c ∈ s.courses, c.cid = cid ∧ c.scheduled = false) →
      RoomsOk (runAll s cids).1 := by
  intro cids
  induction cids with
  | nil => intro s hro _ _ _; exact hro
  | cons cid rest ih =>
    intro s hro hnd hcids hall
    obtain ⟨c0, hc0, hcid, hun⟩ := hall cid (List.mem_cons_self cid rest)
    obtain ⟨hro1, c2, hc2cid, hcourses⟩ := scheduleCourse_step hnd hc0 hcid hun hro
    obtain ⟨hhead, hrest⟩ := List.nodup_cons.mp hcids
    have h1 : (runAll s (cid :: rest)).1 = (runAll (scheduleCourse s cid).1 rest).1 :=
      rfl
    rw [h1]
    refine ih (scheduleCourse s cid).1 hro1 ?_ hrest ?_
    · rw [hcourses, map_update_cids_js s.courses cid c2 hc2cid]
      exact hnd
    · intro cid2 h2
      obtain ⟨c, hc, hccid, hcun⟩ := hall cid2 (List.mem_cons_of_mem cid h2)
      have hne : c.cid ≠ cid := by
        rw [hccid]
        intro heq
        exact hhead (heq ▸ h2)
      refine ⟨c, ?_, hccid, hcun⟩
      rw [hcourses]
      have he : (if c.cid = cid then c2 else c) = c := if_neg hne
      exact he ▸ List.mem_map_of_mem _ hc

theorem insertSorted_perm_js (x : Course) :
    ∀ l : List Course, (insertSorted x l).Perm (x :: l) := by
  intro l
  induction l with
  | nil => rfl
  | cons y ys ih =>
    rw [insertSorted]
    split
    · rfl
    · exact (List.Perm.cons y ih).trans (List.Perm.swap x y ys)

theorem sortCoursesAux_perm_js :
    ∀ (l acc : List Course),
      (l.foldl (fun a x => insertSorted x a) acc).Perm (acc ++ l) := by
  intro l
  induction l with
  | nil => intro acc; simp
  | cons x xs ih =>
    intro acc
    rw [List.foldl_cons]
    refine (ih (insertSorted x acc)).trans ?_
    refine (List.Perm.append_right xs (insertSorted_perm_js x acc)).trans ?_
    exact List.perm_middle.symm

/-- The stable sort of `src/script.js` permutes its input. -/
theorem sortCourses_perm_js (l : List Course) : (sortCourses l).Perm l := by
  have h := sortCoursesAux_perm_js l []
  simpa [sortCourses] using h

/-- After a full `src/script.js` run, the run invariant holds: two
distinct scheduled courses never got the same room, and every scheduled
course's room reads used in the inventory. -/
theorem generate_roomsOk_js {s : Schedule}
    (hnd : (s.courses.map fun c => c.cid).Nodup) :
    RoomsOk (generateOptimalSchedule s) := by
  unfold generateOptimalSchedule
  by_cases hemp : s.courses = []
  · rw [if_pos hemp]
    constructor
    · intro c hc
      rw [hemp] at hc
      cases hc
    · intro c1 hc1
      rw [hemp] at hc1
      cases hc1
  · rw [if_neg hemp]
    have hmap : ((s.courses.map fun c =>
        { c with scheduled := false, day := none, timeIndex := none }).map
        fun c => c.cid).Nodup := by
      rw [List.map_map]
      exact hnd
    have hsortnd : ((sortCourses (s.courses.map fun c =>
        { c with scheduled := false, day := none, timeIndex := none })).map
        fun c => c.cid).Nodup :=
      ((sortCourses_perm_js _).map fun c => c.cid).symm.nodup hmap
    refine runAll_roomsOk_js _ _ ?_ hsortnd hsortnd ?_
    · constructor
      · intro c hc hsch
        have hc2 := (sortCourses_perm_js _).mem_iff.mp hc
        obtain ⟨a, ha, rfl⟩ := List.mem_map.mp hc2
        simp at hsch
      · intro c1 hc1 c2 hc2 hs1 hs2 hne
        have h1 := (sortCourses_perm_js _).mem_iff.mp hc1
        obtain ⟨a, ha, rfl⟩ := List.mem_map.mp h1
        simp at hs1
    · intro cid2 hcid2
      obtain ⟨c, hcm, hccid⟩ := List.mem_map.mp hcid2
      refine ⟨c, hcm, hccid, ?_⟩
      have h1 := (sortCourses_perm_js _).mem_iff.mp hcm
      obtain ⟨a, ha, rfl⟩ := List.mem_map.mp h1
      rfl

/-- Sixteen one-session theory courses with no preferences: the scenario
behind the spec's floor-overflow example. -/
def sixteenTheory : Schedule :=
  ⟨(List.range 16).map fun i => Course.new (i + 1) Part001.CType.theory none none,
    Part001.initializeGrid, Part001.initializeRooms⟩

end ScriptJs


namespace Part001

/-- When phase 1 already found `count` slots, phases 2 and 3 are
skipped. -/
theorem findSlots_phase1_done {s : Schedule} {c : Course} {count : Nat}
    (h : count ≤ (scanDays s c.duration count [] (preferredDays count)).length) :
    findAvailableTimeSlots s c count =
      scanDays s c.duration count [] (preferredDays count) := by
  have h2 : ¬ (scanDays s c.duration count [] (preferredDays count)).length < count := by
    omega
  simp only [findAvailableTimeSlots]
  rw [if_neg h2, if_neg h2]

/-- A completely occupied floor makes the floor scan fail: no fallback
happens inside `scanFloor`. -/
theorem scanFloor_none {s : Schedule} {f : Nat}
    (h : ∀ r, 1 ≤ r → r ≤ 13 → s.rooms f r = false) : scanFloor s f = none := by
  unfold scanFloor
  rw [Option.map_eq_none', List.find?_eq_none]
  intro x hx
  have hx2 : 1 ≤ x ∧ x < 1 + 13 := List.mem_range'_1.mp hx
  simp [h x hx2.1 (by omega)]

/-- Every room below the one the floor scan returns is occupied: the
first free room in ascending order wins. -/
theorem scanFloor_least {s : Schedule} {f : Nat} {fr : Nat × Nat}
    (h : scanFloor s f = some fr) :
    ∀ r2, 1 ≤ r2 → r2 < fr.2 → s.rooms f r2 = false := by
  unfold scanFloor at h
  cases hf : (List.range' 1 13).find? fun room => s.rooms f room with
  | none =>
    rw [hf] at h
    cases h
  | some r =>
    rw [hf] at h
    obtain ⟨-, -, -, hmin⟩ := find?_range'_spec 13 1 r hf
    have hfr : fr = (f, r) := by simpa using h.symm
    subst hfr
    intro r2 h1 h2
    have h3 := hmin r2 h1 (by simpa using h2)
    simpa using h3

/-- The first session of a transaction never takes the consistent-reuse
branch (`useConsistentRoom` is `i > 0`). -/
theorem consistentChoice_first {s : Schedule} {co : Course} {day t : Nat} :
    consistentChoice s co day t false = none := by
  unfold consistentChoice
  rw [if_neg]
  rintro ⟨h, -⟩
  cases h

end Part001

/-- Engine operations of a one-lab-course page: add the course, run the
scheduler.  Used to instantiate the reachable-state theorems. -/
def witOpsLab : List Part001.EngineOp :=
  [Part001.EngineOp.add Part001.CType.lab 1 false none none,
    Part001.EngineOp.generate]

/-- The page state those operations reach. -/
def witLab : Part001.Schedule := Part001.applyOps Part001.initState witOpsLab

/-- The one lab course as the run leaves it: scheduled on Monday slots
0-1 in room (1,1). -/
def witLabCourse : Part001.Course :=
  { cid := 1, ctype := Part001.CType.lab, classesPerWeek := 1,
    consistentRoom := false, floor := none, room := none, scheduled := true,
    scheduledSlots := [(0, 0)], scheduledRooms := [(0, 1, 1)] }

/-- The analogous two-session theory course state. -/
def witOpsTheory : List Part001.EngineOp :=
  [Part001.EngineOp.add Part001.CType.theory 2 false none none,
    Part001.EngineOp.generate]

/-- The theory course as that run leaves it: Monday and Wednesday slot 0,
room (1,1) both days. -/
def witTheoryCourse : Part001.Course :=
  { cid := 1, ctype := Part001.CType.theory, classesPerWeek := 2,
    consistentRoom := false, floor := none, room := none, scheduled := true,
    scheduledSlots := [(0, 0), (2, 0)], scheduledRooms := [(0, 1, 1), (2, 1, 1)] }

theorem witOpsLab_valid : ∀ op ∈ witOpsLab, Part001.ValidOp op := by
  intro op hop
  rcases List.mem_cons.mp hop with rfl | hop2
  · exact ⟨by omega, by omega, trivial, trivial⟩
  · rcases List.mem_cons.mp hop2 with rfl | hop3
    · trivial
    · cases hop3


/-- Claim C1: in the `src/script.js` engine (the version that actually
writes the room inventory), once a (floor, room) is assigned to a course
the inventory marks it used for the rest of the run and no other
scheduled course ever holds the same pair, even on a different day (the
inventory is not day-indexed); concretely, sixteen one-session theory
courses with no preferences receive the sixteen distinct rooms
(1,1)..(1,13),(2,1)..(2,3) in ascending floor/room order, the sixteenth
landing on floor 2. -/
theorem claim_C1 :
    (∀ s : ScriptJs.Schedule, ((s.courses.map fun c => c.cid).Nodup) →
      (∀ c ∈ (ScriptJs.generateOptimalSchedule s).courses, c.scheduled = true →
        ∃ f r, c.floor = some f ∧ c.room = some r ∧
          (ScriptJs.generateOptimalSchedule s).rooms f r = false) ∧
      (∀ c1 ∈ (ScriptJs.generateOptimalSchedule s).courses,
        ∀ c2 ∈ (ScriptJs.generateOptimalSchedule s).courses,
          c1.scheduled = true → c2.scheduled = true → c1.cid ≠ c2.cid →
          (c1.floor, c1.room) ≠ (c2.floor, c2.room))) ∧
    ((ScriptJs.generateOptimalSchedule ScriptJs.sixteenTheory).courses.map
        fun c => (c.floor, c.room)) =
      [(some 1, some 1), (some 1, some 2), (some 1, some 3), (some 1, some 4),
       (some 1, some 5), (some 1, some 6), (some 1, some 7), (some 1, some 8),
       (some 1, some 9), (some 1, some 10), (some 1, some 11), (some 1, some 12),
       (some 1, some 13), (some 2, some 1), (some 2, some 2), (some 2, some 3)] ∧
    ((ScriptJs.generateOptimalSchedule ScriptJs.sixteenTheory).courses.map
        fun c => (c.floor, c.room)).Pairwise (fun p q => p ≠ q) ∧
    (((ScriptJs.generateOptimalSchedule ScriptJs.sixteenTheory).courses.map
        fun c => (c.floor, c.room)).map
        fun p => (p.1.getD 0, p.2.getD 0)).Pairwise
      (fun p q => p.1 < q.1 ∨ (p.1 = q.1 ∧ p.2 < q.2)) ∧
    ((ScriptJs.generateOptimalSchedule ScriptJs.sixteenTheory).courses.map
        fun c => (c.floor, c.room))[15]? = some (some 2, some 3) := by
  have hmap : ((ScriptJs.generateOptimalSchedule ScriptJs.sixteenTheory).courses.map
      fun c => (c.floor, c.room)) =
      [(some 1, some 1), (some 1, some 2), (some 1, some 3), (some 1, some 4),
       (some 1, some 5), (some 1, some 6), (some 1, some 7), (some 1, some 8),
       (some 1, some 9), (some 1, some 10), (some 1, some 11), (some 1, some 12),
       (some 1, some 13), (some 2, some 1), (some 2, some 2), (some 2, some 3)] := by
    decide
  refine ⟨?_, hmap, ?_, ?_, ?_⟩
  · intro s hnd
    exact ⟨(ScriptJs.generate_roomsOk_js hnd).1, (ScriptJs.generate_roomsOk_js hnd).2⟩
  · rw [hmap]
    decide
  · rw [hmap]
    decide
  · rw [hmap]
    decide

/-- Claim C2: after the run triggered by `generateOptimalSchedule` at the
end of any valid operation sequence, every course is scheduled exactly
when its session-slot collection has `classesPerWeek` entries, and every
unscheduled course has both its slot and room collections empty: no
course is left partially committed. -/
theorem claim_C2 (ops : List Part001.EngineOp)
    (hv : ∀ op ∈ ops, Part001.ValidOp op) :
    ∀ c ∈ (Part001.applyOps Part001.initState
        (ops ++ [Part001.EngineOp.generate])).courses,
      (c.scheduled = true ↔ c.scheduledSlots.length = c.classesPerWeek) ∧
      (c.scheduled = false → c.scheduledSlots = [] ∧ c.scheduledRooms = []) := by
  have hv2 : ∀ op ∈ ops ++ [Part001.EngineOp.generate], Part001.ValidOp op := by
    intro op hop
    rcases List.mem_append.mp hop with h | h
    · exact hv op h
    · have hop2 : op = Part001.EngineOp.generate := by simpa using h
      subst hop2
      trivial
  have hinv := Part001.reachable_inv (ops ++ [Part001.EngineOp.generate]) hv2
  intro c hc
  exact ⟨hinv.schedIff c hc, hinv.unschedEmpty c hc⟩

theorem claim_C2_witness :
    witTheoryCourse.scheduled = true ↔
      witTheoryCourse.scheduledSlots.length = witTheoryCourse.classesPerWeek := by
  have h := claim_C2 [Part001.EngineOp.add Part001.CType.theory 2 false none none]
    (by
      intro op hop
      have hop2 : op = Part001.EngineOp.add Part001.CType.theory 2 false none none := by
        simpa using hop
      subst hop2
      exact ⟨by omega, by omega, trivial, trivial⟩)
  exact (h witTheoryCourse (by decide)).1

/-- Claim C3: after any valid operation sequence, no grid cell is covered
by the session spans of two different course objects (each occupied cell
references exactly one course), and a lab course occupies, for each of
its committed sessions, the two consecutive cells at the start index and
the next index, both referencing its own cid. -/
theorem claim_C3 (ops : List Part001.EngineOp)
    (hv : ∀ op ∈ ops, Part001.ValidOp op) :
    (∀ d t : Nat, ∀ c1 ∈ (Part001.applyOps Part001.initState ops).courses,
      ∀ c2 ∈ (Part001.applyOps Part001.initState ops).courses,
        Part001.SpanMem c1.scheduledSlots c1.duration d t →
        Part001.SpanMem c2.scheduledSlots c2.duration d t → c1 = c2) ∧
    (∀ c ∈ (Part001.applyOps Part001.initState ops).courses,
      c.ctype = Part001.CType.lab → ∀ p ∈ c.scheduledSlots,
        c.duration = 2 ∧
        (Part001.applyOps Part001.initState ops).grid p.1 p.2 = some c.cid ∧
        (Part001.applyOps Part001.initState ops).grid p.1 (p.2 + 1) = some c.cid) := by
  have hinv := Part001.reachable_inv ops hv
  constructor
  · intro d t c1 hc1 c2 hc2 h1 h2
    obtain ⟨p, hp, hpd, hpt, hptd⟩ := h1
    obtain ⟨q, hq, hqd, hqt, hqtd⟩ := h2
    have hg1 : (Part001.applyOps Part001.initState ops).grid d t = some c1.cid := by
      have hcov := hinv.gridCover c1 hc1 p hp (t - p.2) (by omega)
      rw [show p.2 + (t - p.2) = t from by omega] at hcov
      rw [← hpd]
      exact hcov
    have hg2 : (Part001.applyOps Part001.initState ops).grid d t = some c2.cid := by
      have hcov := hinv.gridCover c2 hc2 q hq (t - q.2) (by omega)
      rw [show q.2 + (t - q.2) = t from by omega] at hcov
      rw [← hqd]
      exact hcov
    have hcid : c1.cid = c2.cid := Option.some.inj (hg1.symm.trans hg2)
    exact Part001.nodup_cid_inj hinv.nodup hc1 hc2 hcid
  · intro c hc hlab p hp
    have hdur : c.duration = 2 := by
      unfold Part001.Course.duration
      rw [if_pos hlab]
    have hd0 : 0 < c.duration := by omega
    have hd1 : 1 < c.duration := by omega
    refine ⟨hdur, ?_, hinv.gridCover c hc p hp 1 hd1⟩
    have hcov := hinv.gridCover c hc p hp 0 hd0
    rw [Nat.add_zero] at hcov
    exact hcov

theorem claim_C3_witness :
    (Part001.applyOps Part001.initState witOpsLab).grid 0 0 = some witLabCourse.cid ∧
    (Part001.applyOps Part001.initState witOpsLab).grid 0 (0 + 1) =
      some witLabCourse.cid := by
  have h := (claim_C3 witOpsLab witOpsLab_valid).2 witLabCourse (by decide) (by decide)
    (0, 0) (by decide)
  exact ⟨h.2.1, h.2.2⟩

/-- Claim C4: the static part of the slot-availability check blocks a
(slotIndex, duration) pair exactly when the start index is 6, or the span
starts below 6 and reaches past it, or a nonempty span runs past the last
index 12; and the full check computes, as a total boolean function with
no side effects, exactly "not blocked and every cell of the span empty". -/
theorem claim_C4 :
    (∀ t d : Nat, Part001.isBlockedSpec t d = true ↔
      (t = 6 ∨ (t < 6 ∧ 6 < t + d) ∨ (0 < d ∧ 13 < t + d))) ∧
    (∀ (s : Part001.Schedule) (day t d : Nat),
      Part001.isTimeSlotAvailable s day t d =
        (!Part001.isBlockedSpec t d && Part001.spanFree s day t d)) := by
  constructor
  · intro t d
    unfold Part001.isBlockedSpec
    simp
    tauto
  · exact Part001.isTimeSlotAvailable_eq

/-- Claim C5: after any valid operation sequence, every committed session
(day, startSlot) of every course satisfies the static constraints: the
day is a weekday, no index of the span equals 6, and the span ends by
index 12. -/
theorem claim_C5 (ops : List Part001.EngineOp)
    (hv : ∀ op ∈ ops, Part001.ValidOp op) :
    ∀ c ∈ (Part001.applyOps Part001.initState ops).courses,
      ∀ p ∈ c.scheduledSlots,
        p.1 < 5 ∧ (∀ i < c.duration, p.2 + i ≠ 6) ∧ p.2 + c.duration ≤ 13 := by
  have hinv := Part001.reachable_inv ops hv
  intro c hc p hp
  obtain ⟨hd, hok⟩ := hinv.slotOk c hc p hp
  have hok2 : (∀ i < c.duration, p.2 + i ≠ 6) ∧ p.2 + c.duration ≤ 13 := hok
  exact ⟨hd, hok2.1, hok2.2⟩

theorem claim_C5_witness :
    ((0, 0) : Nat × Nat).1 < 5 ∧
      ((0, 0) : Nat × Nat).2 + witLabCourse.duration ≤ 13 := by
  have h := claim_C5 witOpsLab witOpsLab_valid witLabCourse (by decide) (0, 0)
    (by decide)
  exact ⟨h.1, h.2.2⟩

/-- Claim C6: the comparator of `generateOptimalSchedule` orders by the
composite key (lab before theory, more classes per week first,
consistent-room first), and the sort it drives is a stable permutation:
the output is ordered by that key and every key class keeps its original
insertion order. -/
theorem claim_C6 :
    (∀ a b : Part001.Course,
      Part001.compareCourses a b ≤ 0 ↔ Part001.specKeyLe a b) ∧
    (∀ l : List Part001.Course, (Part001.sortCourses l).Perm l) ∧
    (∀ l : List Part001.Course, (Part001.sortCourses l).Pairwise Part001.specKeyLe) ∧
    (∀ (l : List Part001.Course) (k : Nat × Nat × Nat),
      (Part001.sortCourses l).filter (fun c => Part001.keyOf c = k) =
        l.filter fun c => Part001.keyOf c = k) :=
  ⟨Part001.compareCourses_le_zero, Part001.sortCourses_perm,
    Part001.sortCourses_sorted, Part001.sortCourses_filter⟩

/-- Claim C7: for classesPerWeek = count in 1..5, the slot search builds
the preferred days as days[(i * floor(5/count)) mod 5] (count 3 gives
Monday-Wednesday, count 2 gives Monday and Wednesday), collects the first
feasible slot of each preferred day, skips the later phases when phase 1
already found count slots, and always returns at most count pairwise
distinct available (day, slot) pairs. -/
theorem claim_C7 (s : Part001.Schedule) (c : Part001.Course) (count : Nat)
    (h1 : 1 ≤ count) (h5 : count ≤ 5) :
    Part001.preferredDays count =
      (List.range count).map (fun i => i * (5 / count) % 5) ∧
    Part001.preferredDays 3 = [0, 1, 2] ∧
    Part001.preferredDays 2 = [0, 2] ∧
    Part001.scanDays s c.duration count [] (Part001.preferredDays count) =
      (Part001.preferredDays count).filterMap
        (fun d => (Part001.firstSlotOnDay s d c.duration).map fun i => (d, i)) ∧
    (∀ day i : Nat, Part001.firstSlotOnDay s day c.duration = some i →
      Part001.isTimeSlotAvailable s day i c.duration = true ∧
        ∀ j < i, Part001.isTimeSlotAvailable s day j c.duration = false) ∧
    (count ≤ (Part001.scanDays s c.duration count []
        (Part001.preferredDays count)).length →
      Part001.findAvailableTimeSlots s c count =
        Part001.scanDays s c.duration count [] (Part001.preferredDays count)) ∧
    (Part001.findAvailableTimeSlots s c count).length ≤ count ∧
    (Part001.findAvailableTimeSlots s c count).Nodup ∧
    (∀ p ∈ Part001.findAvailableTimeSlots s c count,
      p.1 < 5 ∧ Part001.isTimeSlotAvailable s p.1 p.2 c.duration = true) := by
  refine ⟨rfl, by decide, by decide, ?_, ?_, ?_, ?_, ?_, ?_⟩
  · have h := @Part001.scanDays_full s c.duration count
      (Part001.preferredDays count) [] (by simp [Part001.preferredDays_length])
    simpa using h
  · intro day i h
    obtain ⟨ha, -, hmin⟩ := Part001.firstSlotOnDay_spec h
    exact ⟨ha, hmin⟩
  · exact fun h => Part001.findSlots_phase1_done h
  · exact Part001.findSlots_length_le s c count
  · exact Part001.findSlots_nodup h1 h5
  · exact Part001.findSlots_avail

theorem claim_C7_witness :
    Part001.preferredDays 3 = [0, 1, 2] ∧ Part001.preferredDays 2 = [0, 2] ∧
      (Part001.findAvailableTimeSlots Part001.initState
        (Part001.Course.new 1 Part001.CType.theory 3 false none none) 3).length ≤ 3 := by
  have h := claim_C7 Part001.initState
    (Part001.Course.new 1 Part001.CType.theory 3 false none none) 3
    (by decide) (by decide)
  exact ⟨h.2.1, h.2.2.1, h.2.2.2.2.2.2.1⟩

/-- Claim C8: one session's room is chosen in exactly this order:
consistent-room reuse (never on the first session) of a recorded room,
else the course's explicit preferred floor/room when available, else the
room search; the search scans only the preferred floor's rooms 1..13
ascending when a floor is given — a full preferred floor yields no room
rather than falling back — and otherwise scans floors 1..7 bottom to
top, the first free room winning. -/
theorem claim_C8 :
    (∀ (s : Part001.Schedule) (co : Part001.Course) (day t : Nat) (u : Bool)
        (fr : Nat × Nat),
      Part001.consistentChoice s co day t u = some fr →
        Part001.sessionRoom s co day t u = some fr ∧
          ∃ e ∈ co.scheduledRooms, fr = (e.2.1, e.2.2)) ∧
    (∀ (s : Part001.Schedule) (co : Part001.Course) (day t : Nat),
      Part001.consistentChoice s co day t false = none) ∧
    (∀ (s : Part001.Schedule) (co : Part001.Course) (day t : Nat) (u : Bool)
        (fr : Nat × Nat),
      Part001.consistentChoice s co day t u = none →
      Part001.preferredChoice s co day t = some fr →
        Part001.sessionRoom s co day t u = some fr ∧
          co.floor = some fr.1 ∧ co.room = some fr.2) ∧
    (∀ (s : Part001.Schedule) (co : Part001.Course) (day t : Nat) (u : Bool),
      Part001.consistentChoice s co day t u = none →
      Part001.preferredChoice s co day t = none →
        Part001.sessionRoom s co day t u =
          Part001.findAvailableRoom s co.floor (some co) (some day)) ∧
    (∀ (s : Part001.Schedule) (f : Nat) (co : Option Part001.Course)
        (dy : Option Nat),
      Part001.reuseChoice s co = none →
        Part001.findAvailableRoom s (some f) co dy = Part001.scanFloor s f) ∧
    (∀ (s : Part001.Schedule) (co : Option Part001.Course) (dy : Option Nat),
      Part001.reuseChoice s co = none →
        Part001.findAvailableRoom s none co dy =
          (List.range' 1 7).findSome? fun f => Part001.scanFloor s f) ∧
    (∀ (s : Part001.Schedule) (f : Nat),
      (∀ r, 1 ≤ r → r ≤ 13 → s.rooms f r = false) →
        Part001.scanFloor s f = none) ∧
    (∀ (s : Part001.Schedule) (f : Nat) (fr : Nat × Nat),
      Part001.scanFloor s f = some fr →
        (fr.1 = f ∧ 1 ≤ fr.2 ∧ fr.2 ≤ 13 ∧ s.rooms f fr.2 = true) ∧
          ∀ r2, 1 ≤ r2 → r2 < fr.2 → s.rooms f r2 = false) := by
  refine ⟨?_, ?_, ?_, ?_, ?_, ?_, ?_, ?_⟩
  · exact fun s co day t u fr h =>
      ⟨Part001.sessionRoom_eq_consistent h, Part001.consistentChoice_mem h⟩
  · exact fun s co day t => Part001.consistentChoice_first
  · exact fun s co day t u fr h1 h2 =>
      ⟨Part001.sessionRoom_eq_preferred h1 h2, Part001.preferredChoice_eq h2⟩
  · exact fun s co day t u h1 h2 => Part001.sessionRoom_eq_find h1 h2
  · exact fun s f co dy h => Part001.findAvailableRoom_eq_scan h
  · exact fun s co dy h => Part001.findAvailableRoom_eq_scan h
  · exact fun s f h => Part001.scanFloor_none h
  · exact fun s f fr h => ⟨Part001.scanFloor_some h, Part001.scanFloor_least h⟩

/-- Claim C9: removing a scheduled course clears exactly the grid cells
that referenced it (for a lab, both cells of each session), leaves the
room inventory untouched with the rooms it held reading free, deletes the
course (its cid disappears from the collection, which shrinks by one),
and leaves every other course object and its grid cells unchanged. -/
theorem claim_C9 {s : Part001.Schedule} {i : Nat} {c : Part001.Course}
    (hinv : Part001.Inv s) (hget : s.courses[i]? = some c)
    (hsch : c.scheduled = true) :
    (∀ d t, (Part001.removeCourse s i).grid d t =
      if s.grid d t = some c.cid then none else s.grid d t) ∧
    (Part001.removeCourse s i).rooms = s.rooms ∧
    (∀ e ∈ c.scheduledRooms, (Part001.removeCourse s i).rooms e.2.1 e.2.2 = true) ∧
    (∀ c2 ∈ (Part001.removeCourse s i).courses, c2.cid ≠ c.cid) ∧
    (∀ c2 ∈ s.courses, c2.cid ≠ c.cid → c2 ∈ (Part001.removeCourse s i).courses) ∧
    (Part001.removeCourse s i).courses.length + 1 = s.courses.length ∧
    (∀ c2 ∈ s.courses, c2.cid ≠ c.cid → ∀ p ∈ c2.scheduledSlots,
      ∀ j < c2.duration,
        (Part001.removeCourse s i).grid p.1 (p.2 + j) = some c2.cid) ∧
    (∀ p ∈ c.scheduledSlots, ∀ j < c.duration,
      (Part001.removeCourse s i).grid p.1 (p.2 + j) = none) :=
  Part001.removeCourse_scheduled_spec hinv hget hsch

theorem claim_C9_witness :
    witLabCourse.scheduled = true ∧
    (Part001.removeCourse witLab 0).rooms = witLab.rooms ∧
    (Part001.removeCourse witLab 0).courses.length + 1 = witLab.courses.length := by
  have h := claim_C9 (Part001.reachable_inv witOpsLab witOpsLab_valid)
    (show witLab.courses[0]? = some witLabCourse by decide) (by decide)
  exact ⟨by decide, h.2.1, h.2.2.2.2.2.1⟩

/-- Claim C10 (implicit): in the `src/unnamed/part_001` engine nothing
ever writes the room inventory after initialization: every scheduling,
undo and removal operation returns it unchanged, only the reset at the
start of a run and `clearSchedule` reinitialize it to the same values,
and those values read true for rooms 1..13 of floors 1..7 and false for
rooms 14 and 15 — so they persist across any valid operation sequence. -/
theorem claim_C10 :
    (∀ (s : Part001.Schedule) (cid : Nat) (slot : Nat × Nat) (u : Bool)
        (s2 : Part001.Schedule),
      Part001.scheduleClassSession s cid slot u = some s2 → s2.rooms = s.rooms) ∧
    (∀ (s : Part001.Schedule) (cid : Nat),
      (Part001.scheduleCourse s cid).1.rooms = s.rooms) ∧
    (∀ (s : Part001.Schedule) (cid : Nat),
      (Part001.unscheduleCourse s cid).rooms = s.rooms) ∧
    (∀ (s : Part001.Schedule) (i : Nat),
      (Part001.removeCourse s i).rooms = s.rooms) ∧
    (∀ s : Part001.Schedule, s.courses ≠ [] →
      (Part001.generateOptimalSchedule s).rooms = Part001.initializeRooms) ∧
    (∀ s : Part001.Schedule,
      (Part001.clearSchedule s).rooms = Part001.initializeRooms) ∧
    (∀ f r : Nat, 1 ≤ f → f ≤ 7 → 1 ≤ r → r ≤ 13 →
      Part001.initializeRooms f r = true) ∧
    (∀ f : Nat, Part001.initializeRooms f 14 = false ∧
      Part001.initializeRooms f 15 = false) ∧
    (∀ ops : List Part001.EngineOp, (∀ op ∈ ops, Part001.ValidOp op) →
      (Part001.applyOps Part001.initState ops).rooms = Part001.initializeRooms) := by
  refine ⟨?_, ?_, ?_, ?_, ?_, ?_, ?_, ?_, ?_⟩
  · exact fun s cid slot u s2 h => Part001.scheduleClassSession_rooms h
  · exact Part001.scheduleCourse_rooms
  · exact Part001.unscheduleCourse_rooms
  · exact Part001.removeCourse_rooms
  · exact fun s h => Part001.generate_rooms h
  · exact Part001.clearSchedule_rooms
  · exact fun f r h1 h2 h3 h4 => Part001.initializeRooms_true h1 h2 h3 h4
  · exact Part001.initializeRooms_false_hi
  · exact fun ops hv => (Part001.reachable_inv ops hv).roomsEq
